import Mathlib

/-!
Verification of the Sudolver SAT pipeline (src/main.py, src/src/model/grid.py,
src/src/solvers/sat_solver.py).

The grid is embedded as a list of rows of natural numbers (`0` = empty cell),
mirroring the `numpy` array `SudokuGrid._array`.  The SAT compiler
(`SudokuCNF`) is embedded function-by-function; the stateful `self.cnf`
mutations become explicit state passing on `List (List Int)`.
-/

namespace Sudolver

/-- A sudoku grid: the underlying `n x n` array `SudokuGrid._array`,
embedded as a list of rows (`0` = empty cell). -/
abbrev Grid := List (List Nat)

/-- `SudokuGrid.size`: the side length `n` (`self._array.shape[0]`). -/
def gridSize (g : Grid) : Nat := g.length

/-- Value stored at cell `(r, c)`: the numpy read `self._array[r, c]`
for in-range nonnegative indices (0 when out of range). -/
def cell (g : Grid) (r c : Nat) : Nat := (g.getD r []).getD c 0

/-- The numpy write `self._array[r, c] = v` for in-range nonnegative
indices (no effect when out of range). -/
def setCell (g : Grid) (r c v : Nat) : Grid :=
  g.set r ((g.getD r []).set c v)

/-- The integer square root (the largest `k` with `k * k ≤ n`), written as
a bounded search so that the kernel can evaluate it. -/
def intSqrt (n : Nat) : Nat :=
  ((List.range (n + 1)).filter fun k => k * k ≤ n).getLastD 0

/-- Modelled from the spec: `SudokuGrid.block_size` is missing from src
(`NotImplementedError`); per the spec it is `sqrt(n)`. -/
def blockSize (g : Grid) : Nat := intSqrt (gridSize g)

/-- Modelled from the spec: `SudokuGrid.block_index` is missing from src
(`NotImplementedError`); per the spec the block index of cell `(r, c)` is
`(r / k) * k + (c / k)` with `k` the block size, row-major over blocks. -/
def block_index (k r c : Nat) : Nat := r / k * k + c / k

/-- Modelled from the spec: the grid invariant enforced by the missing
`SudokuGrid.__post_init__` — the array is square `n x n`, `n` has an integer
square root, and every stored value is in `0..n`. -/
def ValidGrid (g : Grid) : Prop :=
  (∀ row ∈ g, row.length = g.length) ∧
  intSqrt g.length * intSqrt g.length = g.length ∧
  ∀ row ∈ g, ∀ v ∈ row, v ≤ g.length

instance : DecidablePred ValidGrid := fun g => by
  unfold ValidGrid; infer_instance

/-- `row_used[r]` of `SudokuCNF._possible_propositions`: `v` is a nonzero
value stored somewhere in row `r`. -/
def rowUsed (g : Grid) (r v : Nat) : Bool :=
  v != 0 && (List.range (gridSize g)).any fun c => cell g r c == v

/-- `col_used[c]` of `SudokuCNF._possible_propositions`. -/
def colUsed (g : Grid) (c v : Nat) : Bool :=
  v != 0 && (List.range (gridSize g)).any fun r => cell g r c == v

/-- `block_used[b]` of `SudokuCNF._possible_propositions`: `v` is a nonzero
value stored in some cell whose block index is `b`. -/
def blockUsed (g : Grid) (b v : Nat) : Bool :=
  v != 0 && (List.range (gridSize g)).any fun r =>
    (List.range (gridSize g)).any fun c =>
      block_index (blockSize g) r c == b && cell g r c == v

/-- `sorted(all_vals - row_used[r] - col_used[c] - block_used[b])` in
`SudokuCNF._possible_propositions`: the candidate values of cell `(r, c)`,
in ascending order. -/
def candidates (g : Grid) (r c : Nat) : List Nat :=
  (List.range' 1 (gridSize g)).filter fun v =>
    !rowUsed g r v && !colUsed g c v &&
      !blockUsed g (block_index (blockSize g) r c) v

/-- `Coordinates` of sat_solver.py. -/
structure Coordinates where
  row : Nat
  col : Nat
  block : Nat
  deriving DecidableEq, Repr

/-- `Proposition` of sat_solver.py: "cell at `coords` has value `val`". -/
structure Proposition where
  coords : Coordinates
  val : Nat
  id : Nat
  deriving DecidableEq, Repr

/-- The (cell, value) pairs enumerated by the main loop of
`SudokuCNF._possible_propositions`: row-major over the empty cells
(`puzzle.enumerate()` order), ascending value within a cell. -/
def cellProps (g : Grid) : List (Coordinates × Nat) :=
  (List.range (gridSize g)).flatMap fun r =>
    (List.range (gridSize g)).flatMap fun c =>
      if cell g r c ≠ 0 then []
      else (candidates g r c).map fun v =>
        (⟨r, c, block_index (blockSize g) r c⟩, v)

/-- The `next_id` counter loop of `SudokuCNF._possible_propositions`:
assign consecutive identifiers starting from `i` to the listed
(cell, value) pairs, building the insertion-ordered dictionary. -/
def buildProps : List (Coordinates × Nat) → Nat → List (Nat × Proposition)
  | [], _ => []
  | cv :: rest, i => (i, ⟨cv.1, cv.2, i⟩) :: buildProps rest (i + 1)

/-- `SudokuCNF._possible_propositions`: the id-keyed proposition
dictionary, embedded as its insertion-ordered association list. -/
def possible_propositions (g : Grid) : List (Nat × Proposition) :=
  buildProps (cellProps g) 1

/-- `self.propositions.values()`: the propositions of a puzzle in
dictionary insertion order. -/
def propsOf (g : Grid) : List Proposition :=
  (possible_propositions g).map Prod.snd

/-- `itertools.combinations(props, 2)`: all position-ordered pairs. -/
def combinations2 : List α → List (α × α)
  | [] => []
  | x :: xs => (xs.map fun y => (x, y)) ++ combinations2 xs

/-- `SudokuCNF._at_least_one`: append the single clause `p1 ∨ … ∨ pk`
to the CNF, skipping an empty clause. -/
def at_least_one (cnf : List (List Int)) (ps : List Proposition) : List (List Int) :=
  let clause : List Int := ps.map fun p => (p.id : Int)
  if clause.isEmpty then cnf else cnf ++ [clause]

/-- `SudokuCNF._at_most_one`: append the clause `¬p ∨ ¬q` for every
combination pair `(p, q)` of the passed propositions. -/
def at_most_one (cnf : List (List Int)) (ps : List Proposition) : List (List Int) :=
  cnf ++ (combinations2 ps).map fun pq => [-(pq.1.id : Int), -(pq.2.id : Int)]

/-- `SudokuCNF._exactly_one`: at-least-one plus at-most-one, skipped
entirely on empty input. -/
def exactly_one (cnf : List (List Int)) (ps : List Proposition) : List (List Int) :=
  if ps.isEmpty then cnf else at_most_one (at_least_one cnf ps) ps

/-- First-occurrence deduplication of a key list (the key order of a
Python dict built by insertion). -/
def dedupFirst [DecidableEq κ] : List κ → List κ
  | [] => []
  | k :: ks => k :: (dedupFirst ks).filter fun k' => k' ≠ k

/-- Modelled from the spec: `group_by` lives in src/utils/group_by.py which
is not in src; per the spec it builds an explicit mapping
`key -> ordered list of propositions`, keys in first-occurrence order and
each group preserving the iteration order. -/
def group_by [DecidableEq κ] (xs : List α) (key : α → κ) : List (κ × List α) :=
  (dedupFirst (xs.map key)).map fun k => (k, xs.filter fun x => key x = k)

/-- `SudokuCNF._every_cell_has_a_single_value`: group the propositions by
their coordinates and require exactly one per group. -/
def every_cell_has_a_single_value (cnf : List (List Int)) (props : List Proposition) : List (List Int) :=
  (group_by props fun p => p.coords).foldl (fun acc kg => exactly_one acc kg.2) cnf

/-- `SudokuCNF._every_row_contains_unique_values`: group by (row, value)
and require at most one per group. -/
def every_row_contains_unique_values (cnf : List (List Int)) (props : List Proposition) : List (List Int) :=
  (group_by props fun p => (p.coords.row, p.val)).foldl (fun acc kg => at_most_one acc kg.2) cnf

/-- `SudokuCNF._every_col_contains_unique_values`: group by (col, value)
and require at most one per group. -/
def every_col_contains_unique_values (cnf : List (List Int)) (props : List Proposition) : List (List Int) :=
  (group_by props fun p => (p.coords.col, p.val)).foldl (fun acc kg => at_most_one acc kg.2) cnf

/-- `SudokuCNF._every_block_contains_unique_values`: group by (block, value)
and require at most one per group. -/
def every_block_contains_unique_values (cnf : List (List Int)) (props : List Proposition) : List (List Int) :=
  (group_by props fun p => (p.coords.block, p.val)).foldl (fun acc kg => at_most_one acc kg.2) cnf

/-- `SudokuCNF.__post_init__`: starting from the empty CNF, run the four
constraint emitters in source order. -/
def post_init (props : List Proposition) : List (List Int) :=
  every_block_contains_unique_values
    (every_col_contains_unique_values
      (every_row_contains_unique_values
        (every_cell_has_a_single_value [] props) props) props) props

/-- The `SudokuCNF` dataclass: the compiled clauses, the id-keyed
proposition dictionary (as an association list) and the encoded puzzle. -/
structure SudokuCNF where
  cnf : List (List Int)
  propositions : List (Nat × Proposition)
  puzzle : Grid

/-- `SudokuCNF.encode`: build the proposition space, then the dataclass
(whose `__post_init__` fills the CNF). -/
def SudokuCNF.encode (puzzle : Grid) : SudokuCNF :=
  let props := possible_propositions puzzle
  { cnf := post_init (props.map fun ip => ip.2)
    propositions := props
    puzzle := puzzle }

/-- `SudokuCNF.decode`: walk the result literals over a copy of the
puzzle; each positive identifier present in the proposition dictionary
writes its value at its coordinates. -/
def SudokuCNF.decode (X : SudokuCNF) (results : List Int) : Grid :=
  results.foldl
    (fun (grid : Grid) (pid : Int) =>
      if 0 < pid then
        match X.propositions.lookup pid.toNat with
        | some p => setCell grid p.coords.row p.coords.col p.val
        | none => grid
      else grid)
    X.puzzle

/-- Truth of a signed CNF literal under a boolean assignment of the
proposition identifiers. -/
def litSat (α : Nat → Bool) (l : Int) : Bool :=
  if 0 < l then α l.toNat else !α l.natAbs

/-- A clause is satisfied when some literal is. -/
def clauseSat (α : Nat → Bool) (c : List Int) : Bool := c.any (litSat α)

/-- A CNF is satisfied when every clause is. -/
def cnfSat (α : Nat → Bool) (f : List (List Int)) : Bool := f.all (clauseSat α)

/-- `solver.get_model()`: the signed-literal list reported for variables
`1..k` under assignment `α`. -/
def modelOf (α : Nat → Bool) (k : Nat) : List Int :=
  (List.range' 1 k).map fun i => if α i then (i : Int) else -(i : Int)

/-- The propositions whose values `SudokuCNF.decode` writes, in the order
it writes them: each positive result identifier present in the
proposition dictionary contributes its proposition. -/
def decodeWrites (props : List (Nat × Proposition)) (results : List Int) : List Proposition :=
  results.filterMap fun pid => if 0 < pid then props.lookup pid.toNat else none

/-- Apply a list of proposition writes to a grid in order. -/
def applyWrites (g : Grid) (ws : List Proposition) : Grid :=
  ws.foldl (fun h p => setCell h p.coords.row p.coords.col p.val) g

/-- A concrete valid 4x4 puzzle: a solved grid with one hole at (0,0). -/
def holeGrid : Grid := [[0, 2, 3, 4], [3, 4, 1, 2], [2, 1, 4, 3], [4, 3, 2, 1]]

/-- A concrete 4x4 grid every cell of which holds 1: no cell is empty, so
the compiled formula is empty, yet the grid breaks every uniqueness rule. -/
def allOnesGrid : Grid := [[1, 1, 1, 1], [1, 1, 1, 1], [1, 1, 1, 1], [1, 1, 1, 1]]

/-- A concrete 4x4 grid with pairwise distinct values 1..16 clipped to 4
only where needed — used to observe numpy index wrapping. -/
def probeGrid : Grid := [[1, 2, 3, 4], [1, 2, 3, 4], [1, 2, 3, 4], [2, 1, 4, 3]]

/-- The propositions reported true by `solver.get_model()` under
assignment `α`, in dictionary order. -/
def trueProps (g : Grid) (α : Nat → Bool) : List Proposition :=
  (possible_propositions g).filterMap fun ip => if α ip.1 then some ip.2 else none

/-- Three concrete propositions for one cell, used to exercise the
clause-generating primitives. -/
def props3 : List Proposition :=
  [⟨⟨0, 0, 0⟩, 1, 1⟩, ⟨⟨0, 0, 0⟩, 2, 2⟩, ⟨⟨0, 0, 0⟩, 3, 3⟩]

/-- A concrete 4x4 grid whose pre-filled cells already violate the row
constraint (two 1s in row 0) — the compiler must still accept it. -/
def badGrid : Grid := [[1, 1, 0, 0], [0, 0, 0, 0], [0, 0, 0, 0], [0, 0, 0, 0]]

/-- The assignment making exactly proposition 1 true. -/
def alphaOne : Nat → Bool := fun i => i == 1

/-- The all-true assignment. -/
def alphaTrue : Nat → Bool := fun _ => true

/-- The values of row `r` of the grid, left to right. -/
def rowVals (g : Grid) (r : Nat) : List Nat :=
  (List.range g.length).map fun c => cell g r c

/-- The values of column `c` of the grid, top to bottom. -/
def colVals (g : Grid) (c : Nat) : List Nat :=
  (List.range g.length).map fun r => cell g r c

/-- The cells of block `b` of an `n x n` grid, row-major within the block
(the `t`-th cell of the block sits `t / k` rows below and `t % k` columns
right of the block's top-left corner). -/
def blockCells (n b : Nat) : List (Nat × Nat) :=
  (List.range n).map fun t =>
    (b / intSqrt n * intSqrt n + t / intSqrt n,
      b % intSqrt n * intSqrt n + t % intSqrt n)

/-- The values of block `b` of the grid. -/
def blockVals (g : Grid) (b : Nat) : List Nat :=
  (blockCells g.length b).map fun rc => cell g rc.1 rc.2

/-- The pre-filled cells of the grid are mutually consistent: no value
appears twice in a row, a column, or a block among the nonzero cells. -/
def ConsistentPrefill (g : Grid) : Prop :=
  (∀ r ∈ List.range (gridSize g), ∀ c1 ∈ List.range (gridSize g),
    ∀ c2 ∈ List.range (gridSize g),
    c1 ≠ c2 → cell g r c1 ≠ 0 → cell g r c1 ≠ cell g r c2) ∧
  (∀ c ∈ List.range (gridSize g), ∀ r1 ∈ List.range (gridSize g),
    ∀ r2 ∈ List.range (gridSize g),
    r1 ≠ r2 → cell g r1 c ≠ 0 → cell g r1 c ≠ cell g r2 c) ∧
  (∀ r1 ∈ List.range (gridSize g), ∀ c1 ∈ List.range (gridSize g),
    ∀ r2 ∈ List.range (gridSize g), ∀ c2 ∈ List.range (gridSize g),
    (r1, c1) ≠ (r2, c2) →
    block_index (blockSize g) r1 c1 = block_index (blockSize g) r2 c2 →
    cell g r1 c1 ≠ 0 → cell g r1 c1 ≠ cell g r2 c2)

instance : DecidablePred ConsistentPrefill := fun g => by
  unfold ConsistentPrefill; infer_instance

/-- The outcome reported by `solver.solve_limited(expect_interrupt=True)`:
`None` (interrupted), `False` (unsatisfiable) or `True` with the model of
`solver.get_model()`. -/
inductive EngineStatus where
  | interrupted : EngineStatus
  | unsat : EngineStatus
  | sat : List Int → EngineStatus
  deriving DecidableEq, Repr

/-- The result of `SatSudokuSolver.run_algorithm`: a raised `TimeoutError`,
`None`, or a decoded grid. -/
inductive SolveResult where
  | timeout : SolveResult
  | noSolution : SolveResult
  | solution : Grid → SolveResult
  deriving DecidableEq, Repr

/-- `SatSudokuSolver.run_algorithm`: encode the puzzle, hand the clauses to
the engine, and map the three engine outcomes to raise-timeout /
no-solution / decoded grid. -/
def run_algorithm (puzzle : Grid) (engine : List (List Int) → EngineStatus) : SolveResult :=
  let sudoku_cnf := SudokuCNF.encode puzzle
  match engine sudoku_cnf.cnf with
  | .interrupted => .timeout
  | .unsat => .noSolution
  | .sat model => .solution (sudoku_cnf.decode model)

/-- The terminal situations of `main` in main.py. -/
inductive MainOutcome where
  | readError : MainOutcome
  | formatError : MainOutcome
  | solved : MainOutcome
  | infeasible : MainOutcome
  | timedOut : MainOutcome
  | solverError : MainOutcome
  deriving DecidableEq, Repr

/-- The `sys.exit` status of `main` for each terminal situation:
file read error 1, parse error 1, solution printed 0, `INFEASIBLE` 1,
`TIMEOUT` 2, generic solver error 1. -/
def mainExitCode : MainOutcome → Nat
  | .readError => 1
  | .formatError => 1
  | .solved => 0
  | .infeasible => 1
  | .timedOut => 2
  | .solverError => 1

/-- Numpy basic integer indexing on one axis of length `n`: indices in
`[0, n)` resolve to themselves, indices in `[-n, 0)` wrap to `n + i`, and
anything else raises `IndexError` (`none`). -/
def npIndex (n : Nat) (i : Int) : Option Nat :=
  if 0 ≤ i then
    if i < (n : Int) then some i.toNat else none
  else
    if -(n : Int) ≤ i then some (i + (n : Int)).toNat else none

/-- `SudokuGrid.__getitem__` at a single-cell coordinate pair
`(r, c)` of signed integers: `self._array[r, c]` under numpy indexing. -/
def getItem (g : Grid) (r c : Int) : Option Nat :=
  match npIndex (gridSize g) r, npIndex (gridSize g) c with
  | some r', some c' => some (cell g r' c')
  | _, _ => none

/-- `SudokuGrid.__setitem__` at a single-cell coordinate pair:
`self._array[r, c] = v` under numpy indexing (the grid after the write,
`none` when numpy raises `IndexError`). -/
def setItem (g : Grid) (r c : Int) (v : Nat) : Option Grid :=
  match npIndex (gridSize g) r, npIndex (gridSize g) c with
  | some r', some c' => some (setCell g r' c' v)
  | _, _ => none

/-- The decimal digit character for `d < 10`. -/
def digitChar (d : Nat) : Char := Char.ofNat (48 + d)

/-- Fuel-driven most-significant-first decimal digit emitter; with fuel
above `n` it prepends the digits of `n` to `acc`. -/
def natCharsAux : Nat → Nat → List Char → List Char
  | 0, _, acc => acc
  | fuel + 1, n, acc =>
    if n < 10 then digitChar n :: acc
    else natCharsAux fuel (n / 10) (digitChar (n % 10) :: acc)

/-- The decimal digit characters of `n`, most significant first
(`str(n)` for a nonnegative integer). -/
def natChars (n : Nat) : List Char := natCharsAux (n + 1) n []

/-- Whether every character is a decimal digit. -/
def allDigits (cs : List Char) : Bool :=
  cs.all fun ch => 48 ≤ ch.toNat && ch.toNat ≤ 57

/-- The numeric value of a digit-character list read left to right,
starting from accumulator `a`. -/
def digitsVal (cs : List Char) (a : Nat) : Nat :=
  cs.foldl (fun x ch => x * 10 + (ch.toNat - 48)) a

/-- `int(token)` for the puzzle format: a nonempty all-digit token parses
to its value, anything else fails. -/
def parseNatChars (cs : List Char) : Option Nat :=
  if cs ≠ [] ∧ allDigits cs then some (digitsVal cs 0) else none

/-- Split a character line at every comma (`line.split(",")`). -/
def splitComma : List Char → List (List Char)
  | [] => [[]]
  | ch :: rest =>
    if ch = ',' then [] :: splitComma rest
    else
      match splitComma rest with
      | t :: ts => (ch :: t) :: ts
      | [] => [[ch]]

/-- Join character tokens with commas (`",".join(tokens)`). -/
def joinComma : List (List Char) → List Char
  | [] => []
  | [x] => x
  | x :: xs => x ++ ',' :: joinComma xs

/-- Modelled from the spec: `SudokuGrid.from_text` is missing from src
(`NotImplementedError`); per its docstring and the spec each line is a
comma-separated row of nonnegative integers, and `MalformedPuzzle` (`none`)
is raised when a token is not a number, row lengths are unequal to the
grid size, a value exceeds `n`, or `n` has no integer square root. -/
def from_text (lines : List (List Char)) : Option Grid :=
  match lines.mapM fun line => (splitComma line).mapM parseNatChars with
  | none => none
  | some rows =>
    if (∀ row ∈ rows, row.length = rows.length) ∧
        intSqrt rows.length * intSqrt rows.length = rows.length ∧
        (∀ row ∈ rows, ∀ v ∈ row, v ≤ rows.length) then
      some rows
    else none

/-- One row of the plain serialization: the comma-joined decimal values
(the format of `from_text`'s docstring and of main.py's INFEASIBLE dump). -/
def plainLine (row : List Nat) : List Char :=
  joinComma (row.map natChars)

/-- The plain textual serialization of a grid, one line per row. -/
def plainRender (g : Grid) : List (List Char) :=
  g.map plainLine

/-- Cut a list into consecutive chunks of size `k` (`k > 0`). -/
def chunksOf (k : Nat) : List α → List (List α)
  | [] => []
  | x :: xs =>
    match chunksOf k xs with
    | [] => [[x]]
    | c :: cs => if c.length < k then (x :: c) :: cs else [x] :: c :: cs

/-- Modelled from the spec: the separator line of the pretty printer
(`SudokuGrid.__str__` is missing from src); a dash line as wide as a
rendered row, `2n + 2k + 1` dashes for single-digit values. -/
def sepLine (n k : Nat) : List Char :=
  List.replicate (2 * n + 2 * k + 1) '-'

/-- Join character tokens with an arbitrary separator. -/
def joinSep (sep : List Char) : List (List Char) → List Char
  | [] => []
  | [x] => x
  | x :: xs => x ++ sep ++ joinSep sep xs

/-- Modelled from the spec: one grid row of the pretty printer — the row
split into `k` blocks of `k` comma-joined values, blocks separated by
`" | "` and the line enclosed in `"| "` and `" |"`. -/
def prettyRow (k : Nat) (row : List Nat) : List Char :=
  '|' :: ' ' ::
    joinSep [' ', '|', ' ']
      ((chunksOf k row).map fun b => joinComma (b.map natChars))
      ++ [' ', '|']

/-- Modelled from the spec: `SudokuGrid.__str__` is missing from src
(`NotImplementedError`); per its docstring and the spec the grid is
rendered as `k x k` visual blocks, a dash separator line before each band
of `k` rows and after the last. -/
def render (g : Grid) : List (List Char) :=
  let n := gridSize g
  let k := intSqrt n
  sepLine n k ::
    (chunksOf k g).flatMap fun band =>
      band.map (prettyRow k) ++ [sepLine n k]

/-- Spec-side description of at-least-one: the clauses it emits —
nothing on empty input, otherwise the single clause `p1 ∨ … ∨ pk`. -/
def deltaALO (ps : List Proposition) : List (List Int) :=
  if ps.isEmpty then [] else [ps.map fun p => (p.id : Int)]

/-- Spec-side description of at-most-one: the clauses it emits — one
binary clause `¬p ∨ ¬q` per combination pair. -/
def deltaAMO (ps : List Proposition) : List (List Int) :=
  (combinations2 ps).map fun pq => [-(pq.1.id : Int), -(pq.2.id : Int)]

/-- Spec-side description of exactly-one: at-least-one plus at-most-one,
nothing on empty input. -/
def deltaEO (ps : List Proposition) : List (List Int) :=
  if ps.isEmpty then [] else deltaALO ps ++ deltaAMO ps

/-- Spec-side constraint family 1: group by cell coordinates, emit
exactly-one per group. -/
def cellFamily (props : List Proposition) : List (List Int) :=
  (group_by props fun p => p.coords).flatMap fun kg => deltaEO kg.2

/-- Spec-side constraint family 2: group by (row, value), emit
at-most-one per group. -/
def rowFamily (props : List Proposition) : List (List Int) :=
  (group_by props fun p => (p.coords.row, p.val)).flatMap fun kg => deltaAMO kg.2

/-- Spec-side constraint family 3: group by (column, value), emit
at-most-one per group. -/
def colFamily (props : List Proposition) : List (List Int) :=
  (group_by props fun p => (p.coords.col, p.val)).flatMap fun kg => deltaAMO kg.2

/-- Spec-side constraint family 4: group by (block, value), emit
at-most-one per group. -/
def blockFamily (props : List Proposition) : List (List Int) :=
  (group_by props fun p => (p.coords.block, p.val)).flatMap fun kg => deltaAMO kg.2

theorem at_least_one_eq (cnf : List (List Int)) (ps : List Proposition) :
    at_least_one cnf ps = cnf ++ deltaALO ps := by
  unfold at_least_one deltaALO
  cases ps <;> simp

theorem at_most_one_eq (cnf : List (List Int)) (ps : List Proposition) :
    at_most_one cnf ps = cnf ++ deltaAMO ps := rfl

theorem exactly_one_eq (cnf : List (List Int)) (ps : List Proposition) :
    exactly_one cnf ps = cnf ++ deltaEO ps := by
  unfold exactly_one deltaEO
  cases h : ps.isEmpty
  · simp only [Bool.false_eq_true, if_false, at_most_one_eq, at_least_one_eq,
      List.append_assoc]
  · simp

theorem foldl_emit_eq {β : Type} (h : β → List (List Int)) (l : List β)
    (cnf : List (List Int)) :
    l.foldl (fun acc x => acc ++ h x) cnf = cnf ++ l.flatMap h := by
  induction l generalizing cnf with
  | nil => simp
  | cons x xs ih => simp [ih, List.append_assoc]

theorem every_cell_eq (cnf : List (List Int)) (props : List Proposition) :
    every_cell_has_a_single_value cnf props = cnf ++ cellFamily props := by
  unfold every_cell_has_a_single_value cellFamily
  rw [show (fun (acc : List (List Int)) (kg : Coordinates × List Proposition) =>
      exactly_one acc kg.2) = fun acc kg => acc ++ deltaEO kg.2 by
    funext acc kg; exact exactly_one_eq acc kg.2]
  exact foldl_emit_eq _ _ _

theorem every_row_eq (cnf : List (List Int)) (props : List Proposition) :
    every_row_contains_unique_values cnf props = cnf ++ rowFamily props := by
  unfold every_row_contains_unique_values rowFamily
  exact foldl_emit_eq _ _ _

theorem every_col_eq (cnf : List (List Int)) (props : List Proposition) :
    every_col_contains_unique_values cnf props = cnf ++ colFamily props := by
  unfold every_col_contains_unique_values colFamily
  exact foldl_emit_eq _ _ _

theorem every_block_eq (cnf : List (List Int)) (props : List Proposition) :
    every_block_contains_unique_values cnf props = cnf ++ blockFamily props := by
  unfold every_block_contains_unique_values blockFamily
  exact foldl_emit_eq _ _ _

theorem post_init_eq (props : List Proposition) :
    post_init props =
      cellFamily props ++ rowFamily props ++ colFamily props ++ blockFamily props := by
  unfold post_init
  rw [every_cell_eq, every_row_eq, every_col_eq, every_block_eq]
  simp [List.append_assoc]

theorem combinations2_length (l : List α) :
    (combinations2 l).length = l.length.choose 2 := by
  induction l with
  | nil => rfl
  | cons x xs ih =>
    simp only [combinations2, List.length_append, List.length_map, ih,
      List.length_cons]
    rw [Nat.choose_succ_succ' xs.length 1]
    simp [Nat.choose_one_right, Nat.add_comm]

theorem mem_combinations2_of_get (l : List α) (i j : Nat) (hij : i < j)
    (hj : j < l.length) :
    (l.get ⟨i, Nat.lt_trans hij hj⟩, l.get ⟨j, hj⟩) ∈ combinations2 l := by
  induction l generalizing i j with
  | nil => simp at hj
  | cons x xs ih =>
    cases i with
    | zero =>
      cases j with
      | zero => exact absurd hij (Nat.lt_irrefl 0)
      | succ j' =>
        apply List.mem_append_left
        simp only [List.get, List.mem_map]
        exact ⟨xs.get ⟨j', Nat.lt_of_succ_lt_succ hj⟩, List.get_mem _ _ _, rfl⟩
    | succ i' =>
      cases j with
      | zero => exact absurd hij (Nat.not_lt_zero _)
      | succ j' =>
        apply List.mem_append_right
        exact ih i' j' (Nat.lt_of_succ_lt_succ hij) (Nat.lt_of_succ_lt_succ hj)

theorem of_mem_combinations2 (l : List α) (pq : α × α)
    (h : pq ∈ combinations2 l) : pq.1 ∈ l ∧ pq.2 ∈ l := by
  induction l with
  | nil => simp [combinations2] at h
  | cons x xs ih =>
    simp only [combinations2, List.mem_append, List.mem_map] at h
    rcases h with ⟨y, hy, hpq⟩ | h
    · cases hpq
      exact ⟨List.mem_cons_self x xs, List.mem_cons_of_mem x hy⟩
    · rcases ih h with ⟨h1, h2⟩
      exact ⟨List.mem_cons_of_mem x h1, List.mem_cons_of_mem x h2⟩

/-- Any two distinct members occur as a combination pair in one order. -/
theorem combinations2_of_mem_ne (l : List α) (p q : α) (hp : p ∈ l)
    (hq : q ∈ l) (hne : p ≠ q) :
    (p, q) ∈ combinations2 l ∨ (q, p) ∈ combinations2 l := by
  induction l with
  | nil => simp at hp
  | cons x xs ih =>
    rcases List.mem_cons.mp hp with hpx | hp'
    · subst hpx
      rcases List.mem_cons.mp hq with hqx | hq'
      · exact absurd hqx.symm hne
      · left
        exact List.mem_append_left _ (List.mem_map.mpr ⟨q, hq', rfl⟩)
    · rcases List.mem_cons.mp hq with hqx | hq'
      · subst hqx
        right
        exact List.mem_append_left _ (List.mem_map.mpr ⟨p, hp', rfl⟩)
      · rcases ih hp' hq' with h | h
        · exact Or.inl (List.mem_append_right _ h)
        · exact Or.inr (List.mem_append_right _ h)

theorem mem_dedupFirst [DecidableEq κ] (l : List κ) (k : κ) :
    k ∈ dedupFirst l ↔ k ∈ l := by
  induction l with
  | nil => simp [dedupFirst]
  | cons x xs ih =>
    simp only [dedupFirst, List.mem_cons, List.mem_filter]
    constructor
    · rintro (h | ⟨h, _⟩)
      · exact Or.inl h
      · exact Or.inr (ih.mp h)
    · rintro (h | h)
      · exact Or.inl h
      · by_cases hkx : k = x
        · exact Or.inl hkx
        · exact Or.inr ⟨ih.mpr h, by simpa using hkx⟩

/-- Every key of some list member yields its filter group in `group_by`. -/
theorem group_mem_group_by [DecidableEq κ] (xs : List α) (key : α → κ)
    (x : α) (hx : x ∈ xs) :
    (key x, xs.filter fun y => key y = key x) ∈ group_by xs key := by
  unfold group_by
  exact List.mem_map.mpr ⟨key x,
    (mem_dedupFirst _ _).mpr (List.mem_map.mpr ⟨x, hx, rfl⟩), rfl⟩

/-- Every group produced by `group_by` is the filter of its key. -/
theorem of_mem_group_by [DecidableEq κ] (xs : List α) (key : α → κ)
    (kg : κ × List α) (h : kg ∈ group_by xs key) :
    kg.2 = xs.filter fun y => key y = kg.1 := by
  unfold group_by at h
  rcases List.mem_map.mp h with ⟨k, _, hk⟩
  cases hk
  rfl

theorem buildProps_map_fst (items : List (Coordinates × Nat)) (i : Nat) :
    (buildProps items i).map Prod.fst = List.range' i items.length := by
  induction items generalizing i with
  | nil => rfl
  | cons cv rest ih =>
    simp only [buildProps, List.map_cons, List.length_cons, List.range'_succ, ih]

theorem buildProps_map_pair (items : List (Coordinates × Nat)) (i : Nat) :
    (buildProps items i).map (fun ip => (ip.2.coords, ip.2.val)) = items := by
  induction items generalizing i with
  | nil => rfl
  | cons cv rest ih => simp only [buildProps, List.map_cons, ih]

theorem buildProps_id_eq_key (items : List (Coordinates × Nat)) (i : Nat) :
    ∀ ip ∈ buildProps items i, ip.2.id = ip.1 := by
  induction items generalizing i with
  | nil => intro ip h; simp [buildProps] at h
  | cons cv rest ih =>
    intro ip h
    rcases List.mem_cons.mp h with h | h
    · subst h; rfl
    · exact ih (i + 1) ip h

theorem lookup_mem {β : Type} (l : List (Nat × β)) (j : Nat) (p : β)
    (h : l.lookup j = some p) : (j, p) ∈ l := by
  induction l with
  | nil => simp [List.lookup] at h
  | cons x xs ih =>
    obtain ⟨k, b⟩ := x
    simp only [List.lookup] at h
    cases hjk : (j == k) with
    | true =>
      rw [hjk] at h
      cases h
      rw [beq_iff_eq.mp hjk]
      exact List.mem_cons_self _ _
    | false =>
      rw [hjk] at h
      exact List.mem_cons_of_mem _ (ih h)

theorem lookup_isSome_of_mem_fst {β : Type} (l : List (Nat × β)) (j : Nat)
    (h : j ∈ l.map Prod.fst) : ∃ p, l.lookup j = some p := by
  induction l with
  | nil => simp at h
  | cons x xs ih =>
    obtain ⟨k, b⟩ := x
    simp only [List.lookup]
    cases hjk : (j == k) with
    | true => exact ⟨b, rfl⟩
    | false =>
      apply ih
      simp only [List.map_cons, List.mem_cons] at h
      rcases h with h | h
      · exact absurd h (by simpa using hjk)
      · exact h

theorem rowUsed_iff (g : Grid) (r v : Nat) :
    rowUsed g r v = true ↔ v ≠ 0 ∧ ∃ c < gridSize g, cell g r c = v := by
  unfold rowUsed
  rw [Bool.and_eq_true, List.any_eq_true]
  constructor
  · rintro ⟨h0, c, hc, hv⟩
    exact ⟨by simpa using h0, c, List.mem_range.mp hc, beq_iff_eq.mp hv⟩
  · rintro ⟨h0, c, hc, hv⟩
    exact ⟨by simpa using h0, c, List.mem_range.mpr hc, beq_iff_eq.mpr hv⟩

theorem colUsed_iff (g : Grid) (c v : Nat) :
    colUsed g c v = true ↔ v ≠ 0 ∧ ∃ r < gridSize g, cell g r c = v := by
  unfold colUsed
  rw [Bool.and_eq_true, List.any_eq_true]
  constructor
  · rintro ⟨h0, r, hr, hv⟩
    exact ⟨by simpa using h0, r, List.mem_range.mp hr, beq_iff_eq.mp hv⟩
  · rintro ⟨h0, r, hr, hv⟩
    exact ⟨by simpa using h0, r, List.mem_range.mpr hr, beq_iff_eq.mpr hv⟩

theorem blockUsed_iff (g : Grid) (b v : Nat) :
    blockUsed g b v = true ↔ v ≠ 0 ∧ ∃ r < gridSize g, ∃ c < gridSize g,
      block_index (blockSize g) r c = b ∧ cell g r c = v := by
  unfold blockUsed
  rw [Bool.and_eq_true, List.any_eq_true]
  constructor
  · rintro ⟨h0, r, hr, hv⟩
    rw [List.any_eq_true] at hv
    rcases hv with ⟨c, hc, hv⟩
    rw [Bool.and_eq_true, beq_iff_eq, beq_iff_eq] at hv
    exact ⟨by simpa using h0, r, List.mem_range.mp hr, c, List.mem_range.mp hc,
      hv.1, hv.2⟩
  · rintro ⟨h0, r, hr, c, hc, hb, hv⟩
    refine ⟨by simpa using h0, r, List.mem_range.mpr hr, ?_⟩
    rw [List.any_eq_true]
    exact ⟨c, List.mem_range.mpr hc,
      by rw [Bool.and_eq_true, beq_iff_eq, beq_iff_eq]; exact ⟨hb, hv⟩⟩

theorem mem_candidates (g : Grid) (r c v : Nat) :
    v ∈ candidates g r c ↔
      (1 ≤ v ∧ v ≤ gridSize g) ∧ rowUsed g r v = false ∧ colUsed g c v = false ∧
        blockUsed g (block_index (blockSize g) r c) v = false := by
  unfold candidates
  rw [List.mem_filter, List.mem_range'_1]
  constructor
  · rintro ⟨⟨h1, h2⟩, hb⟩
    rw [Bool.and_eq_true, Bool.and_eq_true, Bool.not_eq_true',
      Bool.not_eq_true', Bool.not_eq_true'] at hb
    exact ⟨⟨h1, by omega⟩, hb.1.1, hb.1.2, hb.2⟩
  · rintro ⟨⟨h1, h2⟩, hr, hc, hb⟩
    refine ⟨⟨h1, by omega⟩, ?_⟩
    rw [Bool.and_eq_true, Bool.and_eq_true, Bool.not_eq_true',
      Bool.not_eq_true', Bool.not_eq_true']
    exact ⟨⟨hr, hc⟩, hb⟩

theorem candidates_sorted (g : Grid) (r c : Nat) :
    List.Sorted (· < ·) (candidates g r c) :=
  List.Pairwise.filter _ (List.pairwise_lt_range' 1 (gridSize g))

theorem mem_cellProps (g : Grid) (co : Coordinates) (v : Nat) :
    (co, v) ∈ cellProps g ↔
      co.row < gridSize g ∧ co.col < gridSize g ∧
        co.block = block_index (blockSize g) co.row co.col ∧
        cell g co.row co.col = 0 ∧ v ∈ candidates g co.row co.col := by
  unfold cellProps
  constructor
  · intro h
    rcases List.mem_flatMap.mp h with ⟨r, hr, h⟩
    rcases List.mem_flatMap.mp h with ⟨c, hc, h⟩
    by_cases hz : cell g r c ≠ 0
    · rw [if_pos hz] at h; simp at h
    · rw [if_neg hz] at h
      push_neg at hz
      rcases List.mem_map.mp h with ⟨w, hw, hww⟩
      cases hww
      exact ⟨List.mem_range.mp hr, List.mem_range.mp hc, rfl, hz, hw⟩
  · rintro ⟨hr, hc, hb, hz, hv⟩
    refine List.mem_flatMap.mpr ⟨co.row, List.mem_range.mpr hr,
      List.mem_flatMap.mpr ⟨co.col, List.mem_range.mpr hc, ?_⟩⟩
    rw [if_neg (by simpa using hz)]
    refine List.mem_map.mpr ⟨v, hv, ?_⟩
    cases co
    simp only at hb
    rw [hb]

theorem getD_set_self (l : List α) (i : Nat) (x d : α) (h : i < l.length) :
    (l.set i x).getD i d = x := by
  rw [List.getD_eq_getElem?_getD, List.getElem?_set_self h]
  rfl

theorem getD_set_ne (l : List α) (i j : Nat) (x d : α) (h : i ≠ j) :
    (l.set i x).getD j d = l.getD j d := by
  rw [List.getD_eq_getElem?_getD, List.getElem?_set_ne h,
    ← List.getD_eq_getElem?_getD]

theorem getD_length_of_mem (g : Grid) (r : Nat) (hr : r < g.length)
    (hrows : ∀ row ∈ g, row.length = g.length) :
    (g.getD r []).length = g.length := by
  cases hrow : g[r]? with
  | none => exact absurd (List.getElem?_eq_none_iff.mp hrow) (by omega)
  | some row =>
    rw [List.getD_eq_getElem?_getD, hrow]
    exact hrows row (List.getElem?_mem hrow)

theorem setCell_length (g : Grid) (r c v : Nat) :
    (setCell g r c v).length = g.length := List.length_set g r _

theorem setCell_rows (g : Grid) (r c v : Nat)
    (hrows : ∀ row ∈ g, row.length = g.length) :
    ∀ row ∈ setCell g r c v, row.length = g.length := by
  intro row hrow
  by_cases hr : r < g.length
  · rcases List.mem_or_eq_of_mem_set hrow with h | h
    · exact hrows row h
    · subst h
      rw [List.length_set]
      exact getD_length_of_mem g r hr hrows
  · rw [show setCell g r c v = g from List.set_eq_of_length_le (by omega)] at hrow
    exact hrows row hrow

theorem cell_setCell_same (g : Grid) (r c v : Nat) (hr : r < g.length)
    (hc : c < (g.getD r []).length) :
    cell (setCell g r c v) r c = v := by
  unfold cell setCell
  rw [getD_set_self g r _ [] hr, getD_set_self _ c _ 0 hc]

theorem cell_setCell_other (g : Grid) (r c v r' c' : Nat)
    (h : r' ≠ r ∨ c' ≠ c) :
    cell (setCell g r c v) r' c' = cell g r' c' := by
  unfold cell setCell
  by_cases hr : r = r'
  · subst hr
    rcases h with h | h
    · exact absurd rfl h
    · by_cases hlt : r < g.length
      · rw [getD_set_self g r _ [] hlt, getD_set_ne _ c c' v 0 (fun hcc => h hcc.symm)]
      · rw [List.set_eq_of_length_le (by omega)]
  · rw [getD_set_ne g r r' _ [] hr]

theorem applyWrites_length (g : Grid) (ws : List Proposition) :
    (applyWrites g ws).length = g.length := by
  induction ws generalizing g with
  | nil => rfl
  | cons p ws ih =>
    show (applyWrites (setCell g _ _ _) ws).length = g.length
    rw [ih, setCell_length]

theorem applyWrites_rows (g : Grid) (ws : List Proposition)
    (hrows : ∀ row ∈ g, row.length = g.length) :
    ∀ row ∈ applyWrites g ws, row.length = g.length := by
  induction ws generalizing g with
  | nil => exact hrows
  | cons p ws ih =>
    intro row h
    have h2 : ∀ row ∈ setCell g p.coords.row p.coords.col p.val,
        row.length = (setCell g p.coords.row p.coords.col p.val).length := by
      rw [setCell_length]
      exact setCell_rows g _ _ _ hrows
    have := ih (setCell g p.coords.row p.coords.col p.val) h2 row h
    rwa [setCell_length] at this

/-- The nonempty-list form of "every member equals `p`". -/
theorem getLast?_eq_of_all_eq {l : List α} {p : α} (hne : l ≠ [])
    (hall : ∀ x ∈ l, x = p) : l.getLast? = some p := by
  induction l with
  | nil => exact absurd rfl hne
  | cons x xs ih =>
    cases xs with
    | nil => rw [hall x (List.mem_cons_self _ _)]; rfl
    | cons y ys =>
      rw [List.getLast?_cons_cons]
      exact ih (List.cons_ne_nil _ _) fun z hz => hall z (List.mem_cons_of_mem _ hz)

theorem getLast?_cons_of_some {l : List α} {a q : α} (h : l.getLast? = some q) :
    (a :: l).getLast? = some q := by
  cases l with
  | nil => simp at h
  | cons b m =>
    rw [List.getLast?_cons_cons]
    exact h

/-- The value of a cell after applying a list of writes: the last write
targeting the cell wins; with no write the cell keeps its value. -/
theorem applyWrites_cell (g : Grid) (ws : List Proposition) (r c : Nat)
    (hrows : ∀ row ∈ g, row.length = g.length)
    (hin : ∀ p ∈ ws, p.coords.row < g.length ∧ p.coords.col < g.length) :
    cell (applyWrites g ws) r c =
      match (ws.filter fun p => p.coords.row = r ∧ p.coords.col = c).getLast? with
      | some p => p.val
      | none => cell g r c := by
  induction ws generalizing g with
  | nil => rfl
  | cons p ws ih =>
    have hlen : (setCell g p.coords.row p.coords.col p.val).length = g.length :=
      setCell_length g _ _ _
    have hrowsS : ∀ row ∈ setCell g p.coords.row p.coords.col p.val,
        row.length = (setCell g p.coords.row p.coords.col p.val).length := by
      rw [hlen]
      exact setCell_rows g _ _ _ hrows
    have hinS : ∀ q ∈ ws,
        q.coords.row < (setCell g p.coords.row p.coords.col p.val).length ∧
        q.coords.col < (setCell g p.coords.row p.coords.col p.val).length := by
      simp only [hlen]
      exact fun q hq => hin q (List.mem_cons_of_mem _ hq)
    have step : applyWrites g (p :: ws) =
        applyWrites (setCell g p.coords.row p.coords.col p.val) ws := rfl
    rw [step, ih _ hrowsS hinS]
    by_cases ht : p.coords.row = r ∧ p.coords.col = c
    · rw [List.filter_cons_of_pos (by simp [ht.1, ht.2])]
      cases hfl : (ws.filter fun q => q.coords.row = r ∧ q.coords.col = c).getLast? with
      | some q => rw [getLast?_cons_of_some hfl]
      | none =>
        rw [List.getLast?_eq_none_iff.mp hfl]
        show cell (setCell g p.coords.row p.coords.col p.val) r c = p.val
        rcases hin p (List.mem_cons_self _ _) with ⟨hrlt, hclt⟩
        rw [ht.1] at hrlt
        rw [ht.2] at hclt
        rw [ht.1, ht.2]
        exact cell_setCell_same g r c p.val hrlt
          (by rw [getD_length_of_mem g r hrlt hrows]; exact hclt)
    · rw [List.filter_cons_of_neg (by simpa using fun h1 h2 => ht ⟨h1, h2⟩)]
      cases hfl : (ws.filter fun q => q.coords.row = r ∧ q.coords.col = c).getLast? with
      | some q => rfl
      | none =>
        have hne : r ≠ p.coords.row ∨ c ≠ p.coords.col := by
          by_contra hcon
          push_neg at hcon
          exact ht ⟨hcon.1.symm, hcon.2.symm⟩
        exact cell_setCell_other g _ _ _ r c hne

theorem decode_eq (X : SudokuCNF) (results : List Int) :
    X.decode results = applyWrites X.puzzle (decodeWrites X.propositions results) := by
  unfold SudokuCNF.decode decodeWrites applyWrites
  generalize X.puzzle = g0
  induction results generalizing g0 with
  | nil => rfl
  | cons pid rest ih =>
    simp only [List.foldl_cons, List.filterMap_cons]
    by_cases hp : 0 < pid
    · cases hl : X.propositions.lookup pid.toNat with
      | some p => simp only [if_pos hp, hl, List.foldl_cons, ih]
      | none => simp only [if_pos hp, hl, ih]
    · simp only [if_neg hp, ih]

theorem lookup_cons_self {β : Type} (j : Nat) (p : β) (l : List (Nat × β)) :
    List.lookup j ((j, p) :: l) = some p := by
  simp only [List.lookup]
  rw [beq_self_eq_true]

theorem lookup_cons_ne {β : Type} (i j : Nat) (p : β) (l : List (Nat × β))
    (h : i ≠ j) : List.lookup i ((j, p) :: l) = List.lookup i l := by
  simp only [List.lookup]
  rw [beq_false_of_ne h]

theorem decodeWrites_map_signed (P : List (Nat × Proposition)) (α : Nat → Bool)
    (l : List Nat) (h1 : ∀ i ∈ l, 1 ≤ i) :
    decodeWrites P (l.map fun i => if α i then (i : Int) else -(i : Int)) =
      l.filterMap fun i => if α i then P.lookup i else none := by
  unfold decodeWrites
  rw [List.filterMap_map]
  apply List.filterMap_congr
  intro i hi
  have h1i := h1 i hi
  by_cases hα : α i
  · simp only [Function.comp, hα, if_true]
    rw [if_pos (by exact_mod_cast h1i)]
    simp
  · have hαf : α i = false := by simpa using hα
    simp only [Function.comp, hαf, Bool.false_eq_true, if_false]
    rw [if_neg (by omega : ¬(0 : Int) < -(i : Int))]

theorem filterMap_lookup_eq (P : List (Nat × Proposition)) (α : Nat → Bool) :
    ∀ s, P.map Prod.fst = List.range' s P.length →
    (List.range' s P.length).filterMap (fun i => if α i then P.lookup i else none) =
      P.filterMap fun ip => if α ip.1 then some ip.2 else none := by
  induction P with
  | nil => intro s _; rfl
  | cons jp rest ih =>
    intro s hkeys
    obtain ⟨j, p⟩ := jp
    simp only [List.map_cons, List.length_cons, List.range'_succ] at hkeys
    have hj : j = s := (List.cons.injEq _ _ _ _).mp hkeys |>.1
    have hrest : rest.map Prod.fst = List.range' (s + 1) rest.length :=
      (List.cons.injEq _ _ _ _).mp hkeys |>.2
    subst hj
    simp only [List.length_cons, List.range'_succ, List.filterMap_cons]
    have htail : (List.range' (j + 1) rest.length).filterMap
        (fun i => if α i then List.lookup i ((j, p) :: rest) else none) =
        (List.range' (j + 1) rest.length).filterMap
        (fun i => if α i then List.lookup i rest else none) := by
      apply List.filterMap_congr
      intro i hi
      have : j + 1 ≤ i := (List.mem_range'_1.mp hi).1
      rw [lookup_cons_ne i j p rest (by omega)]
    rw [lookup_cons_self j p rest]
    by_cases hα : α j
    · simp only [hα, if_true, htail, ih (j + 1) hrest]
    · simp only [hα, if_false, htail, ih (j + 1) hrest]

theorem decodeWrites_modelOf (P : List (Nat × Proposition)) (α : Nat → Bool)
    (hkeys : P.map Prod.fst = List.range' 1 P.length) :
    decodeWrites P (modelOf α P.length) =
      P.filterMap fun ip => if α ip.1 then some ip.2 else none := by
  unfold modelOf
  rw [decodeWrites_map_signed P α _ (fun i hi => (List.mem_range'_1.mp hi).1),
    filterMap_lookup_eq P α 1 hkeys]

theorem litSat_pos (α : Nat → Bool) (m : Nat) (h : 1 ≤ m) :
    litSat α (m : Int) = α m := by
  unfold litSat
  rw [if_pos (by exact_mod_cast h)]
  simp

theorem litSat_neg (α : Nat → Bool) (m : Nat) (h : 1 ≤ m) :
    litSat α (-(m : Int)) = !α m := by
  unfold litSat
  rw [if_neg (by omega : ¬(0 : Int) < -(m : Int))]
  simp

theorem cnfSat_clause (α : Nat → Bool) (f : List (List Int)) (cl : List Int)
    (hsat : cnfSat α f = true) (hm : cl ∈ f) :
    ∃ lit ∈ cl, litSat α lit = true := by
  unfold cnfSat at hsat
  rw [List.all_eq_true] at hsat
  exact List.any_eq_true.mp (hsat cl hm)

theorem pair_mem_AMO_family [DecidableEq κ] (ps : List Proposition)
    (kf : Proposition → κ) (p q : Proposition) (hp : p ∈ ps) (hq : q ∈ ps)
    (hne : p ≠ q) (hkey : kf p = kf q) :
    [-(p.id : Int), -(q.id : Int)] ∈
        (group_by ps kf).flatMap (fun kg => deltaAMO kg.2) ∨
      [-(q.id : Int), -(p.id : Int)] ∈
        (group_by ps kf).flatMap (fun kg => deltaAMO kg.2) := by
  have hG : (kf p, ps.filter fun x => kf x = kf p) ∈ group_by ps kf :=
    group_mem_group_by ps kf p hp
  have hpG : p ∈ ps.filter fun x => kf x = kf p :=
    List.mem_filter.mpr ⟨hp, by simp⟩
  have hqG : q ∈ ps.filter fun x => kf x = kf p :=
    List.mem_filter.mpr ⟨hq, by simp [hkey.symm]⟩
  rcases combinations2_of_mem_ne _ p q hpG hqG hne with h | h
  · exact Or.inl (List.mem_flatMap.mpr ⟨_, hG,
      List.mem_map.mpr ⟨(p, q), h, rfl⟩⟩)
  · exact Or.inr (List.mem_flatMap.mpr ⟨_, hG,
      List.mem_map.mpr ⟨(q, p), h, rfl⟩⟩)

theorem deltaAMO_subset_deltaEO (l : List Proposition) (hne : l ≠ [])
    (cl : List Int) (h : cl ∈ deltaAMO l) : cl ∈ deltaEO l := by
  unfold deltaEO
  rw [if_neg (by simpa using hne)]
  exact List.mem_append_right _ h

theorem pair_mem_EO_family [DecidableEq κ] (ps : List Proposition)
    (kf : Proposition → κ) (p q : Proposition) (hp : p ∈ ps) (hq : q ∈ ps)
    (hne : p ≠ q) (hkey : kf p = kf q) :
    [-(p.id : Int), -(q.id : Int)] ∈
        (group_by ps kf).flatMap (fun kg => deltaEO kg.2) ∨
      [-(q.id : Int), -(p.id : Int)] ∈
        (group_by ps kf).flatMap (fun kg => deltaEO kg.2) := by
  have hG : (kf p, ps.filter fun x => kf x = kf p) ∈ group_by ps kf :=
    group_mem_group_by ps kf p hp
  have hpG : p ∈ ps.filter fun x => kf x = kf p :=
    List.mem_filter.mpr ⟨hp, by simp⟩
  have hqG : q ∈ ps.filter fun x => kf x = kf p :=
    List.mem_filter.mpr ⟨hq, by simp [hkey.symm]⟩
  have hGne : (ps.filter fun x => kf x = kf p) ≠ [] :=
    List.ne_nil_of_mem hpG
  rcases combinations2_of_mem_ne _ p q hpG hqG hne with h | h
  · exact Or.inl (List.mem_flatMap.mpr ⟨_, hG, deltaAMO_subset_deltaEO _ hGne _
      (List.mem_map.mpr ⟨(p, q), h, rfl⟩)⟩)
  · exact Or.inr (List.mem_flatMap.mpr ⟨_, hG, deltaAMO_subset_deltaEO _ hGne _
      (List.mem_map.mpr ⟨(q, p), h, rfl⟩)⟩)

theorem ALO_mem_EO_family [DecidableEq κ] (ps : List Proposition)
    (kf : Proposition → κ) (p : Proposition) (hp : p ∈ ps) :
    ((ps.filter fun x => kf x = kf p).map fun x => (x.id : Int)) ∈
      (group_by ps kf).flatMap (fun kg => deltaEO kg.2) := by
  have hG : (kf p, ps.filter fun x => kf x = kf p) ∈ group_by ps kf :=
    group_mem_group_by ps kf p hp
  have hpG : p ∈ ps.filter fun x => kf x = kf p :=
    List.mem_filter.mpr ⟨hp, by simp⟩
  refine List.mem_flatMap.mpr ⟨_, hG, ?_⟩
  unfold deltaEO deltaALO
  rw [if_neg (by simpa using List.ne_nil_of_mem hpG),
    if_neg (by simpa using List.ne_nil_of_mem hpG)]
  exact List.mem_append_left _ (List.mem_cons_self _ _)

theorem encode_cnf (g : Grid) :
    (SudokuCNF.encode g).cnf = post_init (propsOf g) := rfl

theorem encode_propositions (g : Grid) :
    (SudokuCNF.encode g).propositions = possible_propositions g := rfl

theorem encode_puzzle (g : Grid) : (SudokuCNF.encode g).puzzle = g := rfl

theorem propsOf_keys (g : Grid) :
    (possible_propositions g).map Prod.fst = List.range' 1 (propsOf g).length := by
  unfold propsOf possible_propositions
  rw [List.length_map]
  have := buildProps_map_fst (cellProps g) 1
  rw [this]
  congr 1
  have h2 := congrArg List.length (buildProps_map_fst (cellProps g) 1)
  simpa using h2.symm

theorem propsOf_ids (g : Grid) :
    (propsOf g).map (fun p => p.id) = List.range' 1 (propsOf g).length := by
  unfold propsOf
  rw [List.map_map]
  have : ((possible_propositions g).map fun ip => ip.2.id) =
      (possible_propositions g).map Prod.fst := by
    apply List.map_congr_left
    intro ip hip
    exact buildProps_id_eq_key (cellProps g) 1 ip hip
  rw [show (fun p => Proposition.id p) ∘ (Prod.snd :
      Nat × Proposition → Proposition) = fun ip => ip.2.id from rfl, this]
  exact propsOf_keys g

theorem propsOf_id_ge_one (g : Grid) : ∀ p ∈ propsOf g, 1 ≤ p.id := by
  intro p hp
  have : p.id ∈ (propsOf g).map fun p => p.id := List.mem_map.mpr ⟨p, hp, rfl⟩
  rw [propsOf_ids g] at this
  exact (List.mem_range'_1.mp this).1

theorem propsOf_ids_nodup (g : Grid) :
    ((propsOf g).map fun p => p.id).Nodup := by
  rw [propsOf_ids g]
  exact List.nodup_range' 1 _

theorem propsOf_pairs (g : Grid) :
    (propsOf g).map (fun p => (p.coords, p.val)) = cellProps g := by
  unfold propsOf
  rw [List.map_map]
  exact buildProps_map_pair (cellProps g) 1

theorem mem_propsOf (g : Grid) (p : Proposition) (hp : p ∈ propsOf g) :
    (p.coords, p.val) ∈ cellProps g := by
  rw [← propsOf_pairs g]
  exact List.mem_map.mpr ⟨p, hp, rfl⟩

theorem exists_propsOf (g : Grid) (co : Coordinates) (v : Nat)
    (h : (co, v) ∈ cellProps g) :
    ∃ p ∈ propsOf g, p.coords = co ∧ p.val = v := by
  rw [← propsOf_pairs g] at h
  rcases List.mem_map.mp h with ⟨p, hp, hpv⟩
  exact ⟨p, hp, congrArg Prod.fst hpv, congrArg Prod.snd hpv⟩

theorem buildProps_length (items : List (Coordinates × Nat)) (i : Nat) :
    (buildProps items i).length = items.length := by
  induction items generalizing i with
  | nil => rfl
  | cons cv rest ih => simp [buildProps, ih]

theorem possible_propositions_keys (g : Grid) :
    (possible_propositions g).map Prod.fst =
      List.range' 1 (possible_propositions g).length := by
  unfold possible_propositions
  rw [buildProps_map_fst, buildProps_length]

theorem mem_trueProps (g : Grid) (α : Nat → Bool) (q : Proposition) :
    q ∈ trueProps g α ↔ q ∈ propsOf g ∧ α q.id = true := by
  unfold trueProps propsOf
  constructor
  · intro h
    rcases List.mem_filterMap.mp h with ⟨ip, hip, hq⟩
    by_cases hα : α ip.1
    · rw [if_pos hα] at hq
      cases hq
      have hid := buildProps_id_eq_key (cellProps g) 1 ip hip
      exact ⟨List.mem_map.mpr ⟨ip, hip, rfl⟩, by rw [hid]; exact hα⟩
    · rw [if_neg hα] at hq
      cases hq
  · rintro ⟨hq, hα⟩
    rcases List.mem_map.mp hq with ⟨ip, hip, hq2⟩
    refine List.mem_filterMap.mpr ⟨ip, hip, ?_⟩
    have hid := buildProps_id_eq_key (cellProps g) 1 ip hip
    rw [if_pos (by rw [← hid, hq2]; exact hα), hq2]

theorem not_both_of_mem_pair (α : Nat → Bool) (f : List (List Int))
    (hsat : cnfSat α f = true) (a b : Nat) (ha : 1 ≤ a) (hb : 1 ≤ b)
    (h : [-(a : Int), -(b : Int)] ∈ f) : ¬(α a = true ∧ α b = true) := by
  rintro ⟨h1, h2⟩
  rcases cnfSat_clause α f _ hsat h with ⟨lit, hlit, hsl⟩
  rcases List.mem_cons.mp hlit with hl | hlit
  · rw [hl, litSat_neg α a ha, h1] at hsl
    simp at hsl
  rcases List.mem_cons.mp hlit with hl | hlit
  · rw [hl, litSat_neg α b hb, h2] at hsl
    simp at hsl
  · simp at hlit

theorem alpha_not_both (g : Grid) (α : Nat → Bool)
    (hsat : cnfSat α (SudokuCNF.encode g).cnf = true)
    (p q : Proposition) (hp : p ∈ propsOf g) (hq : q ∈ propsOf g) (hne : p ≠ q)
    (hkey : p.coords = q.coords ∨
      (p.coords.row = q.coords.row ∧ p.val = q.val) ∨
      (p.coords.col = q.coords.col ∧ p.val = q.val) ∨
      (p.coords.block = q.coords.block ∧ p.val = q.val)) :
    ¬(α p.id = true ∧ α q.id = true) := by
  have hcnf : (SudokuCNF.encode g).cnf =
      cellFamily (propsOf g) ++ rowFamily (propsOf g) ++ colFamily (propsOf g) ++
        blockFamily (propsOf g) := by
    rw [encode_cnf, post_init_eq]
  have hpa := propsOf_id_ge_one g p hp
  have hqa := propsOf_id_ge_one g q hq
  have hmem : [-(p.id : Int), -(q.id : Int)] ∈ (SudokuCNF.encode g).cnf ∨
      [-(q.id : Int), -(p.id : Int)] ∈ (SudokuCNF.encode g).cnf := by
    rcases hkey with hk | hk | hk | hk
    · rcases pair_mem_EO_family (propsOf g) (fun p => p.coords) p q hp hq hne hk
        with h | h
      · exact Or.inl (by
          rw [hcnf]
          exact List.mem_append_left _ (List.mem_append_left _
            (List.mem_append_left _ h)))
      · exact Or.inr (by
          rw [hcnf]
          exact List.mem_append_left _ (List.mem_append_left _
            (List.mem_append_left _ h)))
    · rcases pair_mem_AMO_family (propsOf g) (fun p => (p.coords.row, p.val))
        p q hp hq hne (by simp only []; rw [hk.1, hk.2]) with h | h
      · exact Or.inl (by
          rw [hcnf]
          exact List.mem_append_left _ (List.mem_append_left _
            (List.mem_append_right _ h)))
      · exact Or.inr (by
          rw [hcnf]
          exact List.mem_append_left _ (List.mem_append_left _
            (List.mem_append_right _ h)))
    · rcases pair_mem_AMO_family (propsOf g) (fun p => (p.coords.col, p.val))
        p q hp hq hne (by simp only []; rw [hk.1, hk.2]) with h | h
      · exact Or.inl (by
          rw [hcnf]
          exact List.mem_append_left _ (List.mem_append_right _ h))
      · exact Or.inr (by
          rw [hcnf]
          exact List.mem_append_left _ (List.mem_append_right _ h))
    · rcases pair_mem_AMO_family (propsOf g) (fun p => (p.coords.block, p.val))
        p q hp hq hne (by simp only []; rw [hk.1, hk.2]) with h | h
      · exact Or.inl (by rw [hcnf]; exact List.mem_append_right _ h)
      · exact Or.inr (by rw [hcnf]; exact List.mem_append_right _ h)
  rintro ⟨h1, h2⟩
  rcases hmem with h | h
  · exact not_both_of_mem_pair α _ hsat p.id q.id hpa hqa h ⟨h1, h2⟩
  · exact not_both_of_mem_pair α _ hsat q.id p.id hqa hpa h ⟨h2, h1⟩

theorem exists_true_prop_at (g : Grid) (α : Nat → Bool)
    (hsat : cnfSat α (SudokuCNF.encode g).cnf = true) (r c : Nat)
    (hr : r < gridSize g) (hc : c < gridSize g) (hempty : cell g r c = 0)
    (hcand : candidates g r c ≠ []) :
    ∃ p ∈ propsOf g,
      p.coords = ⟨r, c, block_index (blockSize g) r c⟩ ∧ α p.id = true := by
  rcases List.exists_mem_of_ne_nil _ hcand with ⟨v, hv⟩
  have hcp : ((⟨r, c, block_index (blockSize g) r c⟩ : Coordinates), v) ∈
      cellProps g :=
    (mem_cellProps g _ v).mpr ⟨hr, hc, rfl, hempty, hv⟩
  rcases exists_propsOf g _ v hcp with ⟨p₀, hp₀, hco, _⟩
  have halo := ALO_mem_EO_family (propsOf g) (fun p => p.coords) p₀ hp₀
  have hcnf : (SudokuCNF.encode g).cnf =
      cellFamily (propsOf g) ++ rowFamily (propsOf g) ++ colFamily (propsOf g) ++
        blockFamily (propsOf g) := by
    rw [encode_cnf, post_init_eq]
  have hmem : ((propsOf g).filter fun x => x.coords = p₀.coords).map
      (fun x => (x.id : Int)) ∈ (SudokuCNF.encode g).cnf := by
    rw [hcnf]
    exact List.mem_append_left _ (List.mem_append_left _
      (List.mem_append_left _ halo))
  rcases cnfSat_clause α _ _ hsat hmem with ⟨lit, hlit, hsl⟩
  rcases List.mem_map.mp hlit with ⟨x, hx, hxl⟩
  have hxp : x ∈ propsOf g := (List.mem_filter.mp hx).1
  have hxc : x.coords = p₀.coords := by
    have := (List.mem_filter.mp hx).2
    simpa using this
  refine ⟨x, hxp, by rw [hxc, hco], ?_⟩
  rw [← hxl, litSat_pos α x.id (propsOf_id_ge_one g x hxp)] at hsl
  exact hsl

theorem true_prop_unique (g : Grid) (α : Nat → Bool)
    (hsat : cnfSat α (SudokuCNF.encode g).cnf = true)
    (p q : Proposition) (hp : p ∈ propsOf g) (hq : q ∈ propsOf g)
    (hcoords : p.coords = q.coords) (hap : α p.id = true)
    (haq : α q.id = true) : p = q := by
  by_contra hne
  exact alpha_not_both g α hsat p q hp hq hne (Or.inl hcoords) ⟨hap, haq⟩

theorem decode_modelOf_eq (g : Grid) (α : Nat → Bool) :
    (SudokuCNF.encode g).decode
        (modelOf α (SudokuCNF.encode g).propositions.length) =
      applyWrites g (trueProps g α) := by
  rw [decode_eq, encode_puzzle, encode_propositions]
  congr 1
  exact decodeWrites_modelOf (possible_propositions g) α
    (possible_propositions_keys g)

theorem propsOf_char (g : Grid) (p : Proposition) (hp : p ∈ propsOf g) :
    p.coords.row < gridSize g ∧ p.coords.col < gridSize g ∧
      p.coords.block = block_index (blockSize g) p.coords.row p.coords.col ∧
      cell g p.coords.row p.coords.col = 0 ∧
      p.val ∈ candidates g p.coords.row p.coords.col :=
  (mem_cellProps g p.coords p.val).mp (mem_propsOf g p hp)

theorem trueProps_in_range (g : Grid) (α : Nat → Bool) :
    ∀ p ∈ trueProps g α, p.coords.row < g.length ∧ p.coords.col < g.length := by
  intro p hp
  have hpp := ((mem_trueProps g α p).mp hp).1
  have := propsOf_char g p hpp
  exact ⟨this.1, this.2.1⟩

theorem decoded_cell_prefilled (g : Grid) (α : Nat → Bool)
    (hrows : ∀ row ∈ g, row.length = g.length) (r c : Nat)
    (hnz : cell g r c ≠ 0) :
    cell (applyWrites g (trueProps g α)) r c = cell g r c := by
  rw [applyWrites_cell g _ r c hrows (trueProps_in_range g α)]
  have hfil : ((trueProps g α).filter fun p =>
      p.coords.row = r ∧ p.coords.col = c) = [] := by
    rw [List.filter_eq_nil_iff]
    intro q hq hqt
    have hqp := ((mem_trueProps g α q).mp hq).1
    have hqz := (propsOf_char g q hqp).2.2.2.1
    rw [of_decide_eq_true hqt |>.1, of_decide_eq_true hqt |>.2] at hqz
    exact hnz hqz
  rw [hfil]
  rfl

theorem decoded_cell_empty (g : Grid) (α : Nat → Bool)
    (hsat : cnfSat α (SudokuCNF.encode g).cnf = true)
    (hrows : ∀ row ∈ g, row.length = g.length) (r c : Nat)
    (hr : r < gridSize g) (hc : c < gridSize g) (hempty : cell g r c = 0)
    (hcand : candidates g r c ≠ []) :
    ∃ p ∈ propsOf g,
      p.coords = ⟨r, c, block_index (blockSize g) r c⟩ ∧ α p.id = true ∧
        p.val ∈ candidates g r c ∧
        cell (applyWrites g (trueProps g α)) r c = p.val := by
  rcases exists_true_prop_at g α hsat r c hr hc hempty hcand with ⟨p, hp, hco, hα⟩
  have hpt : p ∈ trueProps g α := (mem_trueProps g α p).mpr ⟨hp, hα⟩
  have hptarget : p.coords.row = r ∧ p.coords.col = c := by rw [hco]; exact ⟨rfl, rfl⟩
  have hpF : p ∈ (trueProps g α).filter fun q =>
      q.coords.row = r ∧ q.coords.col = c :=
    List.mem_filter.mpr ⟨hpt, by simp [hptarget.1, hptarget.2]⟩
  have hall : ∀ q ∈ (trueProps g α).filter fun q =>
      q.coords.row = r ∧ q.coords.col = c, q = p := by
    intro q hq
    have hqt := (List.mem_filter.mp hq).1
    have hqtar := of_decide_eq_true (List.mem_filter.mp hq).2
    rcases (mem_trueProps g α q).mp hqt with ⟨hqp, hqα⟩
    have hqchar := propsOf_char g q hqp
    have hqco : q.coords = ⟨r, c, block_index (blockSize g) r c⟩ := by
      have hb := hqchar.2.2.1
      rw [hqtar.1, hqtar.2] at hb
      cases hqc : q.coords
      cases hqc ▸ hqtar.1
      cases hqc ▸ hqtar.2
      rw [hqc] at hb
      simp only at hb
      rw [hb]
    exact true_prop_unique g α hsat q p hqp hp (by rw [hqco, hco]) hqα hα
  have hlast : ((trueProps g α).filter fun q =>
      q.coords.row = r ∧ q.coords.col = c).getLast? = some p :=
    getLast?_eq_of_all_eq (List.ne_nil_of_mem hpF) hall
  refine ⟨p, hp, hco, hα, ?_, ?_⟩
  · have := (propsOf_char g p hp).2.2.2.2
    rw [hptarget.1, hptarget.2] at this
    exact this
  · rw [applyWrites_cell g _ r c hrows (trueProps_in_range g α), hlast]

theorem cell_le_of_valid (g : Grid) (hv : ValidGrid g) (r c : Nat)
    (hr : r < g.length) (hc : c < g.length) : cell g r c ≤ g.length := by
  unfold cell
  have hrowlen : (g.getD r []).length = g.length :=
    getD_length_of_mem g r hr hv.1
  cases hx : (g.getD r [])[c]? with
  | none =>
    exact absurd (List.getElem?_eq_none_iff.mp hx) (by omega)
  | some x =>
    rw [List.getD_eq_getElem?_getD, hx]
    have hxm : x ∈ g.getD r [] := List.getElem?_mem hx
    have hgm : g.getD r [] ∈ g := by
      cases hrow : g[r]? with
      | none => exact absurd (List.getElem?_eq_none_iff.mp hrow) (by omega)
      | some row =>
        rw [List.getD_eq_getElem?_getD, hrow]
        exact List.getElem?_mem hrow
    exact hv.2.2 _ hgm x hxm

theorem count_one_of_nodup (l : List Nat) (n : Nat) (hlen : l.length = n)
    (hmem : ∀ x ∈ l, 1 ≤ x ∧ x ≤ n) (hnd : l.Nodup) :
    ∀ v, 1 ≤ v → v ≤ n → l.count v = 1 := by
  have hsub : l.toFinset ⊆ Finset.Icc 1 n := by
    intro x hx
    rcases hmem x (List.mem_toFinset.mp hx) with ⟨h1, h2⟩
    exact Finset.mem_Icc.mpr ⟨h1, h2⟩
  have hcard : (Finset.Icc 1 n).card ≤ l.toFinset.card := by
    rw [List.toFinset_card_of_nodup hnd, hlen, Nat.card_Icc]
    omega
  have heq := Finset.eq_of_subset_of_card_le hsub hcard
  intro v h1 h2
  have hv : v ∈ l := List.mem_toFinset.mp
    (heq ▸ Finset.mem_Icc.mpr ⟨h1, h2⟩)
  have hle := List.nodup_iff_count_le_one.mp hnd v
  have hge : 0 < l.count v := List.count_pos_iff.mpr hv
  omega

theorem decoded_cell_char (g : Grid) (α : Nat → Bool) (hv : ValidGrid g)
    (hsat : cnfSat α (SudokuCNF.encode g).cnf = true)
    (hlive : ∀ r < gridSize g, ∀ c < gridSize g,
      cell g r c = 0 → candidates g r c ≠ []) (r c : Nat)
    (hr : r < gridSize g) (hc : c < gridSize g) :
    (1 ≤ cell (applyWrites g (trueProps g α)) r c ∧
      cell (applyWrites g (trueProps g α)) r c ≤ gridSize g) ∧
    (cell g r c ≠ 0 → cell (applyWrites g (trueProps g α)) r c = cell g r c) ∧
    (cell g r c = 0 → ∃ p ∈ propsOf g,
      p.coords = ⟨r, c, block_index (blockSize g) r c⟩ ∧ α p.id = true ∧
      p.val ∈ candidates g r c ∧
      cell (applyWrites g (trueProps g α)) r c = p.val) := by
  by_cases hz : cell g r c = 0
  · rcases decoded_cell_empty g α hsat hv.1 r c hr hc hz (hlive r hr c hc hz)
      with ⟨p, hp, hco, hα, hcand, hval⟩
    have hb := (mem_candidates g r c p.val).mp hcand
    refine ⟨⟨?_, ?_⟩, fun hnz => absurd hz hnz, fun _ =>
      ⟨p, hp, hco, hα, hcand, hval⟩⟩
    · rw [hval]; exact hb.1.1
    · rw [hval]; exact hb.1.2
  · have heq := decoded_cell_prefilled g α hv.1 r c hz
    refine ⟨⟨?_, ?_⟩, fun _ => heq, fun h => absurd h hz⟩
    · rw [heq]; omega
    · rw [heq]; exact cell_le_of_valid g hv r c hr hc

theorem decoded_distinct_row (g : Grid) (α : Nat → Bool) (hv : ValidGrid g)
    (hsat : cnfSat α (SudokuCNF.encode g).cnf = true)
    (hpre : ConsistentPrefill g)
    (hlive : ∀ r < gridSize g, ∀ c < gridSize g,
      cell g r c = 0 → candidates g r c ≠ []) (r c1 c2 : Nat)
    (hr : r < gridSize g) (hc1 : c1 < gridSize g) (hc2 : c2 < gridSize g)
    (hne : c1 ≠ c2) :
    cell (applyWrites g (trueProps g α)) r c1 ≠
      cell (applyWrites g (trueProps g α)) r c2 := by
  intro hveq
  have h1 := decoded_cell_char g α hv hsat hlive r c1 hr hc1
  have h2 := decoded_cell_char g α hv hsat hlive r c2 hr hc2
  by_cases hz1 : cell g r c1 = 0
  · rcases h1.2.2 hz1 with ⟨p1, hp1, hco1, hα1, hcand1, hval1⟩
    by_cases hz2 : cell g r c2 = 0
    · rcases h2.2.2 hz2 with ⟨p2, hp2, hco2, hα2, hcand2, hval2⟩
      have hvals : p1.val = p2.val := by rw [← hval1, ← hval2]; exact hveq
      have hpne : p1 ≠ p2 := by
        intro hpp
        rw [hpp, hco2] at hco1
        exact hne (congrArg Coordinates.col hco1).symm
      exact alpha_not_both g α hsat p1 p2 hp1 hp2 hpne
        (Or.inr (Or.inl ⟨by rw [hco1, hco2], hvals⟩)) ⟨hα1, hα2⟩
    · have hval2 := h2.2.1 hz2
      have hused : rowUsed g r p1.val = true := by
        rw [rowUsed_iff]
        refine ⟨?_, c2, hc2, ?_⟩
        · have := (mem_candidates g r c1 p1.val).mp hcand1
          omega
        · rw [← hval2, ← hveq, hval1]
      have hfree := ((mem_candidates g r c1 p1.val).mp hcand1).2.1
      rw [hused] at hfree
      exact absurd hfree (by simp)
  · have hval1 := h1.2.1 hz1
    by_cases hz2 : cell g r c2 = 0
    · rcases h2.2.2 hz2 with ⟨p2, hp2, hco2, hα2, hcand2, hval2⟩
      have hused : rowUsed g r p2.val = true := by
        rw [rowUsed_iff]
        refine ⟨?_, c1, hc1, ?_⟩
        · have := (mem_candidates g r c2 p2.val).mp hcand2
          omega
        · rw [← hval1, hveq, hval2]
      have hfree := ((mem_candidates g r c2 p2.val).mp hcand2).2.1
      rw [hused] at hfree
      exact absurd hfree (by simp)
    · have hval2 := h2.2.1 hz2
      exact hpre.1 r (List.mem_range.mpr hr) c1 (List.mem_range.mpr hc1) c2
        (List.mem_range.mpr hc2) hne hz1 (by rw [← hval1, hveq, hval2])

theorem decoded_distinct_col (g : Grid) (α : Nat → Bool) (hv : ValidGrid g)
    (hsat : cnfSat α (SudokuCNF.encode g).cnf = true)
    (hpre : ConsistentPrefill g)
    (hlive : ∀ r < gridSize g, ∀ c < gridSize g,
      cell g r c = 0 → candidates g r c ≠ []) (c r1 r2 : Nat)
    (hc : c < gridSize g) (hr1 : r1 < gridSize g) (hr2 : r2 < gridSize g)
    (hne : r1 ≠ r2) :
    cell (applyWrites g (trueProps g α)) r1 c ≠
      cell (applyWrites g (trueProps g α)) r2 c := by
  intro hveq
  have h1 := decoded_cell_char g α hv hsat hlive r1 c hr1 hc
  have h2 := decoded_cell_char g α hv hsat hlive r2 c hr2 hc
  by_cases hz1 : cell g r1 c = 0
  · rcases h1.2.2 hz1 with ⟨p1, hp1, hco1, hα1, hcand1, hval1⟩
    by_cases hz2 : cell g r2 c = 0
    · rcases h2.2.2 hz2 with ⟨p2, hp2, hco2, hα2, hcand2, hval2⟩
      have hvals : p1.val = p2.val := by rw [← hval1, ← hval2]; exact hveq
      have hpne : p1 ≠ p2 := by
        intro hpp
        rw [hpp, hco2] at hco1
        exact hne (congrArg Coordinates.row hco1).symm
      exact alpha_not_both g α hsat p1 p2 hp1 hp2 hpne
        (Or.inr (Or.inr (Or.inl ⟨by rw [hco1, hco2], hvals⟩))) ⟨hα1, hα2⟩
    · have hval2 := h2.2.1 hz2
      have hused : colUsed g c p1.val = true := by
        rw [colUsed_iff]
        refine ⟨?_, r2, hr2, ?_⟩
        · have := (mem_candidates g r1 c p1.val).mp hcand1
          omega
        · rw [← hval2, ← hveq, hval1]
      have hfree := ((mem_candidates g r1 c p1.val).mp hcand1).2.2.1
      rw [hused] at hfree
      exact absurd hfree (by simp)
  · have hval1 := h1.2.1 hz1
    by_cases hz2 : cell g r2 c = 0
    · rcases h2.2.2 hz2 with ⟨p2, hp2, hco2, hα2, hcand2, hval2⟩
      have hused : colUsed g c p2.val = true := by
        rw [colUsed_iff]
        refine ⟨?_, r1, hr1, ?_⟩
        · have := (mem_candidates g r2 c p2.val).mp hcand2
          omega
        · rw [← hval1, hveq, hval2]
      have hfree := ((mem_candidates g r2 c p2.val).mp hcand2).2.2.1
      rw [hused] at hfree
      exact absurd hfree (by simp)
    · have hval2 := h2.2.1 hz2
      exact hpre.2.1 c (List.mem_range.mpr hc) r1 (List.mem_range.mpr hr1) r2
        (List.mem_range.mpr hr2) hne hz1 (by rw [← hval1, hveq, hval2])

theorem decoded_distinct_block (g : Grid) (α : Nat → Bool) (hv : ValidGrid g)
    (hsat : cnfSat α (SudokuCNF.encode g).cnf = true)
    (hpre : ConsistentPrefill g)
    (hlive : ∀ r < gridSize g, ∀ c < gridSize g,
      cell g r c = 0 → candidates g r c ≠ []) (r1 c1 r2 c2 : Nat)
    (hr1 : r1 < gridSize g) (hc1 : c1 < gridSize g) (hr2 : r2 < gridSize g)
    (hc2 : c2 < gridSize g) (hne : (r1, c1) ≠ (r2, c2))
    (hbi : block_index (blockSize g) r1 c1 = block_index (blockSize g) r2 c2) :
    cell (applyWrites g (trueProps g α)) r1 c1 ≠
      cell (applyWrites g (trueProps g α)) r2 c2 := by
  intro hveq
  have h1 := decoded_cell_char g α hv hsat hlive r1 c1 hr1 hc1
  have h2 := decoded_cell_char g α hv hsat hlive r2 c2 hr2 hc2
  by_cases hz1 : cell g r1 c1 = 0
  · rcases h1.2.2 hz1 with ⟨p1, hp1, hco1, hα1, hcand1, hval1⟩
    by_cases hz2 : cell g r2 c2 = 0
    · rcases h2.2.2 hz2 with ⟨p2, hp2, hco2, hα2, hcand2, hval2⟩
      have hvals : p1.val = p2.val := by rw [← hval1, ← hval2]; exact hveq
      have hpne : p1 ≠ p2 := by
        intro hpp
        rw [hpp, hco2] at hco1
        exact hne (by
          have h1' := congrArg Coordinates.row hco1
          have h2' := congrArg Coordinates.col hco1
          simp only at h1' h2'
          rw [h1', h2'])
      exact alpha_not_both g α hsat p1 p2 hp1 hp2 hpne
        (Or.inr (Or.inr (Or.inr ⟨by rw [hco1, hco2]; simpa using hbi, hvals⟩)))
        ⟨hα1, hα2⟩
    · have hval2 := h2.2.1 hz2
      have hused : blockUsed g (block_index (blockSize g) r1 c1) p1.val = true := by
        rw [blockUsed_iff]
        refine ⟨?_, r2, hr2, c2, hc2, hbi.symm, ?_⟩
        · have := (mem_candidates g r1 c1 p1.val).mp hcand1
          omega
        · rw [← hval2, ← hveq, hval1]
      have hfree := ((mem_candidates g r1 c1 p1.val).mp hcand1).2.2.2
      rw [hused] at hfree
      exact absurd hfree (by simp)
  · have hval1 := h1.2.1 hz1
    by_cases hz2 : cell g r2 c2 = 0
    · rcases h2.2.2 hz2 with ⟨p2, hp2, hco2, hα2, hcand2, hval2⟩
      have hused : blockUsed g (block_index (blockSize g) r2 c2) p2.val = true := by
        rw [blockUsed_iff]
        refine ⟨?_, r1, hr1, c1, hc1, hbi, ?_⟩
        · have := (mem_candidates g r2 c2 p2.val).mp hcand2
          omega
        · rw [← hval1, hveq, hval2]
      have hfree := ((mem_candidates g r2 c2 p2.val).mp hcand2).2.2.2
      rw [hused] at hfree
      exact absurd hfree (by simp)
    · have hval2 := h2.2.1 hz2
      exact hpre.2.2 r1 (List.mem_range.mpr hr1) c1 (List.mem_range.mpr hc1) r2
        (List.mem_range.mpr hr2) c2 (List.mem_range.mpr hc2) hne hbi hz1
        (by rw [← hval1, hveq, hval2])

theorem blockCells_length (n b : Nat) : (blockCells n b).length = n := by
  simp [blockCells]

theorem sqrt_pos_of_lt (n b : Nat) (hkk : intSqrt n * intSqrt n = n)
    (hb : b < n) : 0 < intSqrt n := by
  by_contra h
  push_neg at h
  have hz : intSqrt n = 0 := by omega
  rw [hz] at hkk
  omega

theorem blockCells_mem_char (n b : Nat)
    (hkk : intSqrt n * intSqrt n = n) (hb : b < n) :
    ∀ rc ∈ blockCells n b,
      rc.1 < n ∧ rc.2 < n ∧ block_index (intSqrt n) rc.1 rc.2 = b := by
  intro rc hrc
  rcases List.mem_map.mp hrc with ⟨t, ht, hz⟩
  have htn : t < n := List.mem_range.mp ht
  have hk0 : 0 < intSqrt n := sqrt_pos_of_lt n b hkk hb
  have htk : t / intSqrt n < intSqrt n :=
    (Nat.div_lt_iff_lt_mul hk0).mpr (by omega)
  have hbk : b / intSqrt n < intSqrt n :=
    (Nat.div_lt_iff_lt_mul hk0).mpr (by omega)
  have htm : t % intSqrt n < intSqrt n := Nat.mod_lt _ hk0
  have hbm : b % intSqrt n < intSqrt n := Nat.mod_lt _ hk0
  have hrow : b / intSqrt n * intSqrt n + t / intSqrt n < n := by
    have h1 : b / intSqrt n * intSqrt n + t / intSqrt n <
        (b / intSqrt n + 1) * intSqrt n := by
      rw [Nat.succ_mul]
      omega
    have h2 : (b / intSqrt n + 1) * intSqrt n ≤ intSqrt n * intSqrt n :=
      Nat.mul_le_mul_right _ (by omega)
    omega
  have hcol : b % intSqrt n * intSqrt n + t % intSqrt n < n := by
    have h1 : b % intSqrt n * intSqrt n + t % intSqrt n <
        (b % intSqrt n + 1) * intSqrt n := by
      rw [Nat.succ_mul]
      omega
    have h2 : (b % intSqrt n + 1) * intSqrt n ≤ intSqrt n * intSqrt n :=
      Nat.mul_le_mul_right _ (by omega)
    omega
  have hdiv1 : (b / intSqrt n * intSqrt n + t / intSqrt n) / intSqrt n =
      b / intSqrt n := by
    rw [Nat.add_comm, Nat.add_mul_div_right _ _ hk0, Nat.div_eq_of_lt htk]
    omega
  have hdiv2 : (b % intSqrt n * intSqrt n + t % intSqrt n) / intSqrt n =
      b % intSqrt n := by
    rw [Nat.add_comm, Nat.add_mul_div_right _ _ hk0, Nat.div_eq_of_lt htm]
    omega
  have hbi : block_index (intSqrt n) (b / intSqrt n * intSqrt n + t / intSqrt n)
      (b % intSqrt n * intSqrt n + t % intSqrt n) = b := by
    unfold block_index
    rw [hdiv1, hdiv2]
    have := Nat.div_add_mod' b (intSqrt n)
    omega
  subst hz
  exact ⟨hrow, hcol, hbi⟩

theorem blockCells_nodup (n b : Nat)
    (hkk : intSqrt n * intSqrt n = n) (hb : b < n) :
    (blockCells n b).Nodup := by
  apply List.Nodup.map_on _ (List.nodup_range n)
  intro t1 h1 t2 h2 heq
  have hk0 : 0 < intSqrt n := sqrt_pos_of_lt n b hkk hb
  have hfst := congrArg Prod.fst heq
  have hsnd := congrArg Prod.snd heq
  simp only at hfst hsnd
  have hdiv : t1 / intSqrt n = t2 / intSqrt n := by omega
  have hmod : t1 % intSqrt n = t2 % intSqrt n := by omega
  have e1 := Nat.div_add_mod t1 (intSqrt n)
  have e2 := Nat.div_add_mod t2 (intSqrt n)
  rw [hdiv, hmod] at e1
  omega

theorem decoded_rowVals_count (g : Grid) (α : Nat → Bool) (hv : ValidGrid g)
    (hsat : cnfSat α (SudokuCNF.encode g).cnf = true)
    (hpre : ConsistentPrefill g)
    (hlive : ∀ r < gridSize g, ∀ c < gridSize g,
      cell g r c = 0 → candidates g r c ≠ []) (r : Nat) (hr : r < gridSize g) :
    ∀ v, 1 ≤ v → v ≤ gridSize g →
      (rowVals (applyWrites g (trueProps g α)) r).count v = 1 := by
  have hlen : (applyWrites g (trueProps g α)).length = gridSize g :=
    applyWrites_length g _
  have hrw : rowVals (applyWrites g (trueProps g α)) r =
      (List.range (gridSize g)).map fun c =>
        cell (applyWrites g (trueProps g α)) r c := by
    unfold rowVals
    rw [hlen]
  rw [hrw]
  apply count_one_of_nodup _ (gridSize g)
  · rw [List.length_map, List.length_range]
  · intro x hx
    rcases List.mem_map.mp hx with ⟨c, hcm, hcx⟩
    rw [← hcx]
    exact (decoded_cell_char g α hv hsat hlive r c hr (List.mem_range.mp hcm)).1
  · apply List.Nodup.map_on _ (List.nodup_range _)
    intro c1 hc1 c2 hc2 heq
    by_contra hne
    exact decoded_distinct_row g α hv hsat hpre hlive r c1 c2 hr
      (List.mem_range.mp hc1) (List.mem_range.mp hc2) hne heq

theorem decoded_colVals_count (g : Grid) (α : Nat → Bool) (hv : ValidGrid g)
    (hsat : cnfSat α (SudokuCNF.encode g).cnf = true)
    (hpre : ConsistentPrefill g)
    (hlive : ∀ r < gridSize g, ∀ c < gridSize g,
      cell g r c = 0 → candidates g r c ≠ []) (c : Nat) (hc : c < gridSize g) :
    ∀ v, 1 ≤ v → v ≤ gridSize g →
      (colVals (applyWrites g (trueProps g α)) c).count v = 1 := by
  have hlen : (applyWrites g (trueProps g α)).length = gridSize g :=
    applyWrites_length g _
  have hrw : colVals (applyWrites g (trueProps g α)) c =
      (List.range (gridSize g)).map fun r =>
        cell (applyWrites g (trueProps g α)) r c := by
    unfold colVals
    rw [hlen]
  rw [hrw]
  apply count_one_of_nodup _ (gridSize g)
  · rw [List.length_map, List.length_range]
  · intro x hx
    rcases List.mem_map.mp hx with ⟨r, hrm, hrx⟩
    rw [← hrx]
    exact (decoded_cell_char g α hv hsat hlive r c (List.mem_range.mp hrm) hc).1
  · apply List.Nodup.map_on _ (List.nodup_range _)
    intro r1 hr1 r2 hr2 heq
    by_contra hne
    exact decoded_distinct_col g α hv hsat hpre hlive c r1 r2 hc
      (List.mem_range.mp hr1) (List.mem_range.mp hr2) hne heq

theorem decoded_blockVals_count (g : Grid) (α : Nat → Bool) (hv : ValidGrid g)
    (hsat : cnfSat α (SudokuCNF.encode g).cnf = true)
    (hpre : ConsistentPrefill g)
    (hlive : ∀ r < gridSize g, ∀ c < gridSize g,
      cell g r c = 0 → candidates g r c ≠ []) (b : Nat) (hb : b < gridSize g) :
    ∀ v, 1 ≤ v → v ≤ gridSize g →
      (blockVals (applyWrites g (trueProps g α)) b).count v = 1 := by
  have hlen : (applyWrites g (trueProps g α)).length = gridSize g :=
    applyWrites_length g _
  have hrw : blockVals (applyWrites g (trueProps g α)) b =
      (blockCells (gridSize g) b).map fun rc =>
        cell (applyWrites g (trueProps g α)) rc.1 rc.2 := by
    unfold blockVals
    rw [hlen]
  rw [hrw]
  have hchar := blockCells_mem_char (gridSize g) b hv.2.1 hb
  apply count_one_of_nodup _ (gridSize g)
  · rw [List.length_map, blockCells_length]
  · intro x hx
    rcases List.mem_map.mp hx with ⟨rc, hrcm, hrcx⟩
    rw [← hrcx]
    rcases hchar rc hrcm with ⟨hlt1, hlt2, _⟩
    exact (decoded_cell_char g α hv hsat hlive rc.1 rc.2 hlt1 hlt2).1
  · apply List.Nodup.map_on _ (blockCells_nodup (gridSize g) b hv.2.1 hb)
    intro rc1 hm1 rc2 hm2 heq
    by_contra hne
    rcases hchar rc1 hm1 with ⟨ha1, ha2, ha3⟩
    rcases hchar rc2 hm2 with ⟨hb1, hb2, hb3⟩
    refine decoded_distinct_block g α hv hsat hpre hlive rc1.1 rc1.2 rc2.1 rc2.2
      ha1 ha2 hb1 hb2 ?_ (by unfold blockSize; rw [ha3, hb3]) heq
    intro hpair
    apply hne
    calc rc1 = (rc1.1, rc1.2) := rfl
      _ = (rc2.1, rc2.2) := hpair
      _ = rc2 := rfl

/-- C1, counterexample: soundness as stated fails for an arbitrary grid.
The all-ones 4x4 grid is a well-formed grid with no empty cell, so the
compiled formula is empty and every assignment satisfies it; the decoded
grid agrees with the input on every non-empty cell, yet its first row
contains the value 1 four times, not exactly once. -/
theorem solve_decode_soundness_cex :
    ValidGrid allOnesGrid ∧
    cnfSat alphaTrue (SudokuCNF.encode allOnesGrid).cnf = true ∧
    (∀ r < gridSize allOnesGrid, ∀ c < gridSize allOnesGrid,
      cell allOnesGrid r c ≠ 0 →
      cell ((SudokuCNF.encode allOnesGrid).decode
        (modelOf alphaTrue (SudokuCNF.encode allOnesGrid).propositions.length))
        r c = cell allOnesGrid r c) ∧
    ¬(rowVals ((SudokuCNF.encode allOnesGrid).decode
        (modelOf alphaTrue (SudokuCNF.encode allOnesGrid).propositions.length))
        0).count 1 = 1 := by
  decide

/-- C1 (amended): soundness of the solve/decode pipeline, under the two
hypotheses the code actually needs — the pre-filled cells are mutually
consistent and every empty cell has at least one candidate value.  For
every such valid grid and every assignment satisfying the compiled
formula, the decoded grid (obtained from the model reported for variables
`1..k`) agrees with the grid on every originally non-empty cell, and every
row, column and block of it contains each value `1..n` exactly once. -/
theorem solve_decode_soundness (g : Grid) (α : Nat → Bool)
    (hv : ValidGrid g) (hpre : ConsistentPrefill g)
    (hlive : ∀ r < gridSize g, ∀ c < gridSize g,
      cell g r c = 0 → candidates g r c ≠ [])
    (hsat : cnfSat α (SudokuCNF.encode g).cnf = true) :
    (∀ r < gridSize g, ∀ c < gridSize g, cell g r c ≠ 0 →
      cell ((SudokuCNF.encode g).decode
        (modelOf α (SudokuCNF.encode g).propositions.length)) r c =
        cell g r c) ∧
    (∀ r < gridSize g, ∀ v, 1 ≤ v → v ≤ gridSize g →
      (rowVals ((SudokuCNF.encode g).decode
        (modelOf α (SudokuCNF.encode g).propositions.length)) r).count v = 1) ∧
    (∀ c < gridSize g, ∀ v, 1 ≤ v → v ≤ gridSize g →
      (colVals ((SudokuCNF.encode g).decode
        (modelOf α (SudokuCNF.encode g).propositions.length)) c).count v = 1) ∧
    (∀ b < gridSize g, ∀ v, 1 ≤ v → v ≤ gridSize g →
      (blockVals ((SudokuCNF.encode g).decode
        (modelOf α (SudokuCNF.encode g).propositions.length)) b).count v = 1) := by
  rw [decode_modelOf_eq]
  refine ⟨?_, ?_, ?_, ?_⟩
  · intro r _ c _ hnz
    exact decoded_cell_prefilled g α hv.1 r c hnz
  · intro r hr v h1 h2
    exact decoded_rowVals_count g α hv hsat hpre hlive r hr v h1 h2
  · intro c hc v h1 h2
    exact decoded_colVals_count g α hv hsat hpre hlive c hc v h1 h2
  · intro b hb v h1 h2
    exact decoded_blockVals_count g α hv hsat hpre hlive b hb v h1 h2

/-- C1 witness: the amended soundness theorem applied to a concrete 4x4
puzzle with a single hole, under the assignment making exactly
proposition 1 true. -/
theorem solve_decode_soundness_witness :
    (ValidGrid holeGrid ∧ ConsistentPrefill holeGrid ∧
      (∀ r < gridSize holeGrid, ∀ c < gridSize holeGrid,
        cell holeGrid r c = 0 → candidates holeGrid r c ≠ []) ∧
      cnfSat alphaOne (SudokuCNF.encode holeGrid).cnf = true) ∧
    ((∀ r < gridSize holeGrid, ∀ c < gridSize holeGrid,
        cell holeGrid r c ≠ 0 →
      cell ((SudokuCNF.encode holeGrid).decode
        (modelOf alphaOne (SudokuCNF.encode holeGrid).propositions.length)) r c =
        cell holeGrid r c) ∧
    (∀ r < gridSize holeGrid, ∀ v, 1 ≤ v → v ≤ gridSize holeGrid →
      (rowVals ((SudokuCNF.encode holeGrid).decode
        (modelOf alphaOne (SudokuCNF.encode holeGrid).propositions.length)) r).count v = 1) ∧
    (∀ c < gridSize holeGrid, ∀ v, 1 ≤ v → v ≤ gridSize holeGrid →
      (colVals ((SudokuCNF.encode holeGrid).decode
        (modelOf alphaOne (SudokuCNF.encode holeGrid).propositions.length)) c).count v = 1) ∧
    (∀ b < gridSize holeGrid, ∀ v, 1 ≤ v → v ≤ gridSize holeGrid →
      (blockVals ((SudokuCNF.encode holeGrid).decode
        (modelOf alphaOne (SudokuCNF.encode holeGrid).propositions.length)) b).count v = 1)) :=
  ⟨⟨by decide, by decide, by decide, by decide⟩,
    solve_decode_soundness holeGrid alphaOne (by decide) (by decide)
      (by decide) (by decide)⟩

/-- C2: proposition space construction.  For every grid: the proposition
dictionary keys are exactly the consecutive identifiers `1..k` (no gaps,
so the id-to-proposition map is a bijection on `1..k`); each proposition
stores its own key as `id`; the (cell, value) pairs, in id order, are
exactly the row-major enumeration of empty cells with their candidate
lists; a cell's candidate list is ascending; and a value is a candidate
exactly when it lies in `1..n` and is absent from the cell's row, column
and block.  Determinism is inherent: the construction is a pure function
of the grid, so encoding the same grid twice yields identical numbering. -/
theorem proposition_space_char (g : Grid) :
    ((possible_propositions g).map Prod.fst =
      List.range' 1 (possible_propositions g).length) ∧
    (∀ ip ∈ possible_propositions g, ip.2.id = ip.1) ∧
    ((possible_propositions g).map (fun ip => (ip.2.coords, ip.2.val)) =
      cellProps g) ∧
    (∀ co : Coordinates, ∀ v, (co, v) ∈ cellProps g ↔
      co.row < gridSize g ∧ co.col < gridSize g ∧
        co.block = block_index (blockSize g) co.row co.col ∧
        cell g co.row co.col = 0 ∧ v ∈ candidates g co.row co.col) ∧
    (∀ r c, List.Sorted (· < ·) (candidates g r c)) ∧
    (∀ r c v, v ∈ candidates g r c ↔
      (1 ≤ v ∧ v ≤ gridSize g) ∧
        ¬(∃ j < gridSize g, cell g r j = v) ∧
        ¬(∃ i < gridSize g, cell g i c = v) ∧
        ¬(∃ i < gridSize g, ∃ j < gridSize g,
          block_index (blockSize g) i j = block_index (blockSize g) r c ∧
            cell g i j = v)) := by
  refine ⟨possible_propositions_keys g,
    buildProps_id_eq_key (cellProps g) 1,
    buildProps_map_pair (cellProps g) 1,
    mem_cellProps g, candidates_sorted g, ?_⟩
  intro r c v
  rw [mem_candidates]
  constructor
  · rintro ⟨hb, hrw, hcw, hbw⟩
    refine ⟨hb, ?_, ?_, ?_⟩
    · intro h
      rcases h with ⟨j, hj, hv⟩
      have : rowUsed g r v = true := (rowUsed_iff g r v).mpr ⟨by omega, j, hj, hv⟩
      rw [this] at hrw
      cases hrw
    · intro h
      rcases h with ⟨i, hi, hv⟩
      have : colUsed g c v = true := (colUsed_iff g c v).mpr ⟨by omega, i, hi, hv⟩
      rw [this] at hcw
      cases hcw
    · intro h
      rcases h with ⟨i, hi, j, hj, hbi, hv⟩
      have : blockUsed g (block_index (blockSize g) r c) v = true :=
        (blockUsed_iff g _ v).mpr ⟨by omega, i, hi, j, hj, hbi, hv⟩
      rw [this] at hbw
      cases hbw
  · rintro ⟨hb, hrw, hcw, hbw⟩
    refine ⟨hb, ?_, ?_, ?_⟩
    · cases hu : rowUsed g r v
      · rfl
      · rcases (rowUsed_iff g r v).mp hu with ⟨_, j, hj, hv⟩
        exact absurd ⟨j, hj, hv⟩ hrw
    · cases hu : colUsed g c v
      · rfl
      · rcases (colUsed_iff g c v).mp hu with ⟨_, i, hi, hv⟩
        exact absurd ⟨i, hi, hv⟩ hcw
    · cases hu : blockUsed g (block_index (blockSize g) r c) v
      · rfl
      · rcases (blockUsed_iff g _ v).mp hu with ⟨_, i, hi, j, hj, hbi, hv⟩
        exact absurd ⟨i, hi, j, hj, hbi, hv⟩ hbw

/-- C2 witness: the characterization applied to the concrete 4x4 single-hole
puzzle, whose only proposition is id 1 for value 1 at cell (0,0). -/
theorem proposition_space_char_witness :
    (1, (⟨⟨0, 0, 0⟩, 1, 1⟩ : Proposition)) ∈ possible_propositions holeGrid ∧
    (⟨⟨0, 0, 0⟩, 1, 1⟩ : Proposition).id = 1 ∧
    1 ∈ candidates holeGrid 0 0 ∧
    List.Sorted (· < ·) (candidates holeGrid 0 0) :=
  ⟨by decide,
    (proposition_space_char holeGrid).2.1 (1, ⟨⟨0, 0, 0⟩, 1, 1⟩) (by decide),
    by decide,
    (proposition_space_char holeGrid).2.2.2.2.1 0 0⟩

/-- C3: the compiler emits exactly four constraint families over the
proposition space and nothing else — grouping by cell coordinates it emits
the exactly-one clauses, and grouping by (row, value), (column, value) and
(block, value) it emits the at-most-one clauses, concatenated in that
order. -/
theorem four_constraint_families (props : List Proposition) :
    post_init props =
      ((group_by props fun p => p.coords).flatMap fun kg =>
        exactly_one [] kg.2) ++
      ((group_by props fun p => (p.coords.row, p.val)).flatMap fun kg =>
        at_most_one [] kg.2) ++
      ((group_by props fun p => (p.coords.col, p.val)).flatMap fun kg =>
        at_most_one [] kg.2) ++
      ((group_by props fun p => (p.coords.block, p.val)).flatMap fun kg =>
        at_most_one [] kg.2) := by
  rw [post_init_eq]
  have hEO : ∀ ps : List Proposition, exactly_one [] ps = deltaEO ps := by
    intro ps
    rw [exactly_one_eq]
    rfl
  have hAMO : ∀ ps : List Proposition, at_most_one [] ps = deltaAMO ps := by
    intro ps
    rw [at_most_one_eq]
    rfl
  simp only [hEO, hAMO]
  rfl

/-- C4: behaviour of the clause-generating primitives.  At-least-one
emits nothing on empty input and otherwise the single clause
`p1 ∨ … ∨ pk`; at-most-one appends one binary clause `¬pi ∨ ¬pj` per
position-ordered pair — for every `i < j` the clause over the `i`-th and
`j`-th propositions is emitted, every emitted clause is such a pair, and
there are exactly `k * (k - 1) / 2` of them; exactly-one is at-least-one
followed by at-most-one and emits nothing on empty input. -/
theorem clause_primitives_char (cnf : List (List Int)) (ps : List Proposition) :
    (at_least_one cnf [] = cnf) ∧
    (ps ≠ [] → at_least_one cnf ps = cnf ++ [ps.map fun p => (p.id : Int)]) ∧
    (at_most_one cnf ps = cnf ++ deltaAMO ps) ∧
    ((deltaAMO ps).length = ps.length * (ps.length - 1) / 2) ∧
    (∀ i j, ∀ hij : i < j, ∀ hj : j < ps.length,
      [-((ps.get ⟨i, Nat.lt_trans hij hj⟩).id : Int),
        -((ps.get ⟨j, hj⟩).id : Int)] ∈ deltaAMO ps) ∧
    (∀ cl ∈ deltaAMO ps, ∃ pq ∈ combinations2 ps,
      cl = [-(pq.1.id : Int), -(pq.2.id : Int)] ∧ pq.1 ∈ ps ∧ pq.2 ∈ ps) ∧
    (exactly_one cnf [] = cnf) ∧
    (ps ≠ [] → exactly_one cnf ps =
      cnf ++ [ps.map fun p => (p.id : Int)] ++ deltaAMO ps) := by
  refine ⟨rfl, ?_, at_most_one_eq cnf ps, ?_, ?_, ?_, rfl, ?_⟩
  · intro hne
    rw [at_least_one_eq]
    unfold deltaALO
    rw [if_neg (by simpa using hne)]
  · unfold deltaAMO
    rw [List.length_map, combinations2_length, Nat.choose_two_right]
  · intro i j hij hj
    unfold deltaAMO
    exact List.mem_map.mpr ⟨_, mem_combinations2_of_get ps i j hij hj, rfl⟩
  · intro cl hcl
    unfold deltaAMO at hcl
    rcases List.mem_map.mp hcl with ⟨pq, hpq, hcl2⟩
    exact ⟨pq, hpq, hcl2.symm, (of_mem_combinations2 ps pq hpq).1,
      (of_mem_combinations2 ps pq hpq).2⟩
  · intro hne
    rw [exactly_one_eq]
    unfold deltaEO deltaALO
    rw [if_neg (by simpa using hne), if_neg (by simpa using hne)]
    rw [List.append_assoc]

/-- C4 witness: the primitives evaluated on three concrete propositions
with ids 1, 2, 3. -/
theorem clause_primitives_char_witness :
    at_least_one [] props3 = [] ++ [props3.map fun p => (p.id : Int)] ∧
    [-((props3.get ⟨0, by decide⟩).id : Int),
      -((props3.get ⟨1, by decide⟩).id : Int)] ∈ deltaAMO props3 ∧
    (deltaAMO props3).length = props3.length * (props3.length - 1) / 2 ∧
    exactly_one [] props3 =
      [] ++ [props3.map fun p => (p.id : Int)] ++ deltaAMO props3 :=
  ⟨(clause_primitives_char [] props3).2.1 (by decide),
    (clause_primitives_char [] props3).2.2.2.2.1 0 1 (by decide) (by decide),
    (clause_primitives_char [] props3).2.2.2.1,
    (clause_primitives_char [] props3).2.2.2.2.2.2.2 (by decide)⟩

theorem decodeWrites_filter (P : List (Nat × Proposition)) (l : List Int) :
    decodeWrites P (l.filter fun pid =>
      decide (0 < pid) && (P.lookup pid.toNat).isSome) = decodeWrites P l := by
  induction l with
  | nil => rfl
  | cons a l ih =>
    unfold decodeWrites at ih ⊢
    by_cases hpos : 0 < a
    · cases hl : P.lookup a.toNat with
      | some p =>
        rw [List.filter_cons_of_pos (by simp [hpos, hl]), List.filterMap_cons,
          List.filterMap_cons, if_pos hpos, hl, ih]
      | none =>
        rw [List.filter_cons_of_neg (by simp [hl]), List.filterMap_cons,
          if_pos hpos, hl, ih]
    · rw [List.filter_cons_of_neg (by simp [hpos]), List.filterMap_cons,
        if_neg hpos, ih]

theorem decodeWrites_mem_props (g : Grid) (results : List Int)
    (p : Proposition)
    (hp : p ∈ decodeWrites (possible_propositions g) results) :
    p ∈ propsOf g := by
  unfold decodeWrites at hp
  rcases List.mem_filterMap.mp hp with ⟨pid, _, hpid⟩
  by_cases hpos : 0 < pid
  · rw [if_pos hpos] at hpid
    have := lookup_mem _ _ _ hpid
    exact List.mem_map.mpr ⟨(pid.toNat, p), this, rfl⟩
  · rw [if_neg hpos] at hpid
    cases hpid

theorem decodeWrites_in_range (g : Grid) (results : List Int) :
    ∀ p ∈ decodeWrites (possible_propositions g) results,
      p.coords.row < g.length ∧ p.coords.col < g.length := by
  intro p hp
  have := propsOf_char g p (decodeWrites_mem_props g results p hp)
  exact ⟨this.1, this.2.1⟩

/-- C5: decode postcondition and frame.  For every valid grid and every
result list: the encoding still holds the original grid; dropping the
non-positive identifiers and the identifiers absent from the proposition
dictionary does not change the decoded grid (they are silently ignored);
and for every cell, decode leaves the cell at its original value when no
kept identifier targets it, and writes the last targeting proposition's
value otherwise. -/
theorem decode_frame (g : Grid) (hv : ValidGrid g) (results : List Int) :
    ((SudokuCNF.encode g).puzzle = g) ∧
    ((SudokuCNF.encode g).decode results =
      (SudokuCNF.encode g).decode (results.filter fun pid =>
        decide (0 < pid) &&
          ((SudokuCNF.encode g).propositions.lookup pid.toNat).isSome)) ∧
    (∀ r c : Nat,
      (((decodeWrites (SudokuCNF.encode g).propositions results).filter fun p =>
          p.coords.row = r ∧ p.coords.col = c) = [] →
        cell ((SudokuCNF.encode g).decode results) r c = cell g r c) ∧
      (∀ p : Proposition,
        ((decodeWrites (SudokuCNF.encode g).propositions results).filter fun q =>
          q.coords.row = r ∧ q.coords.col = c).getLast? = some p →
        cell ((SudokuCNF.encode g).decode results) r c = p.val)) := by
  refine ⟨rfl, ?_, ?_⟩
  · rw [decode_eq, decode_eq, encode_puzzle, encode_propositions,
      decodeWrites_filter]
  · intro r c
    rw [decode_eq, encode_puzzle, encode_propositions]
    have hcell := applyWrites_cell g
      (decodeWrites (possible_propositions g) results) r c hv.1
      (decodeWrites_in_range g results)
    constructor
    · intro hfil
      rw [hcell, hfil]
      rfl
    · intro p hlast
      rw [hcell, hlast]

/-- C5 witness: decoding the single-hole puzzle with result list
`[1, -5, 7]` — proposition 1 is written, `-5` is negative and `7` is
absent from the dictionary, so both are ignored. -/
theorem decode_frame_witness :
    ((SudokuCNF.encode holeGrid).puzzle = holeGrid) ∧
    ((SudokuCNF.encode holeGrid).decode [1, -5, 7] =
      (SudokuCNF.encode holeGrid).decode ([1, -5, 7].filter fun pid =>
        decide (0 < pid) &&
          ((SudokuCNF.encode holeGrid).propositions.lookup pid.toNat).isSome)) ∧
    cell ((SudokuCNF.encode holeGrid).decode [1, -5, 7]) 0 0 =
      (⟨⟨0, 0, 0⟩, 1, 1⟩ : Proposition).val ∧
    cell ((SudokuCNF.encode holeGrid).decode [1, -5, 7]) 1 1 =
      cell holeGrid 1 1 :=
  ⟨(decode_frame holeGrid (by decide) [1, -5, 7]).1,
    (decode_frame holeGrid (by decide) [1, -5, 7]).2.1,
    ((decode_frame holeGrid (by decide) [1, -5, 7]).2.2 0 0).2
      ⟨⟨0, 0, 0⟩, 1, 1⟩ (by decide),
    ((decode_frame holeGrid (by decide) [1, -5, 7]).2.2 1 1).1 (by decide)⟩

/-- C6: outcome separation in the pipeline.  For every puzzle and every
engine behaviour, `run_algorithm` raises a timeout exactly when the engine
was interrupted, reports no solution exactly when the engine proved
unsatisfiability, and returns a grid exactly when the engine reported a
model — and then the grid is the decoding of that model. -/
theorem run_algorithm_outcomes (puzzle : Grid)
    (engine : List (List Int) → EngineStatus) :
    (run_algorithm puzzle engine = SolveResult.timeout ↔
      engine (SudokuCNF.encode puzzle).cnf = EngineStatus.interrupted) ∧
    (run_algorithm puzzle engine = SolveResult.noSolution ↔
      engine (SudokuCNF.encode puzzle).cnf = EngineStatus.unsat) ∧
    (∀ grid, run_algorithm puzzle engine = SolveResult.solution grid ↔
      ∃ model, engine (SudokuCNF.encode puzzle).cnf = EngineStatus.sat model ∧
        grid = (SudokuCNF.encode puzzle).decode model) := by
  unfold run_algorithm
  cases h : engine (SudokuCNF.encode puzzle).cnf with
  | interrupted => simp [h]
  | unsat => simp [h]
  | sat model =>
    refine ⟨by simp [h], by simp [h], ?_⟩
    intro grid
    simp only [h]
    constructor
    · intro hg
      cases hg
      exact ⟨model, rfl, rfl⟩
    · rintro ⟨m, hm, hgrid⟩
      cases hm
      rw [hgrid]

/-- C7, counterexample: a proven-unsatisfiable puzzle and a malformed
input file lead `main` to the same exit status 1, so the four outcomes are
not pairwise distinct. -/
theorem exit_status_cex :
    mainExitCode MainOutcome.infeasible = mainExitCode MainOutcome.formatError := rfl

/-- C7 (amended): the process exit status separates success (0), timeout
(2) and the remaining outcomes (1), but infeasible and input/format errors
share status 1 and are distinguished only by the printed output. -/
theorem exit_status_amended :
    mainExitCode MainOutcome.solved = 0 ∧
    mainExitCode MainOutcome.infeasible = 1 ∧
    mainExitCode MainOutcome.timedOut = 2 ∧
    mainExitCode MainOutcome.readError = 1 ∧
    mainExitCode MainOutcome.formatError = 1 ∧
    mainExitCode MainOutcome.solverError = 1 ∧
    mainExitCode MainOutcome.solved ≠ mainExitCode MainOutcome.infeasible ∧
    mainExitCode MainOutcome.solved ≠ mainExitCode MainOutcome.timedOut ∧
    mainExitCode MainOutcome.infeasible ≠ mainExitCode MainOutcome.timedOut ∧
    mainExitCode MainOutcome.formatError = mainExitCode MainOutcome.infeasible := by
  decide

theorem prop_key_of_mem (g : Grid) (p : Proposition) (hp : p ∈ propsOf g) :
    ∃ ip ∈ possible_propositions g, ip.1 = p.id := by
  rcases List.mem_map.mp hp with ⟨ip, hip, hsnd⟩
  refine ⟨ip, hip, ?_⟩
  rw [← buildProps_id_eq_key (cellProps g) 1 ip hip, hsnd]

theorem wf_lit_pos (g : Grid) (p : Proposition) (hp : p ∈ propsOf g) :
    ((p.id : Int)) ≠ 0 ∧
      ∃ ip ∈ (SudokuCNF.encode g).propositions, ip.1 = (p.id : Int).natAbs := by
  have h1 := propsOf_id_ge_one g p hp
  refine ⟨by omega, ?_⟩
  rcases prop_key_of_mem g p hp with ⟨ip, hip, hkey⟩
  exact ⟨ip, hip, by simpa using hkey⟩

theorem wf_lit_neg (g : Grid) (p : Proposition) (hp : p ∈ propsOf g) :
    (-(p.id : Int)) ≠ 0 ∧
      ∃ ip ∈ (SudokuCNF.encode g).propositions, ip.1 = (-(p.id : Int)).natAbs := by
  have h1 := propsOf_id_ge_one g p hp
  refine ⟨by omega, ?_⟩
  rcases prop_key_of_mem g p hp with ⟨ip, hip, hkey⟩
  exact ⟨ip, hip, by simpa using hkey⟩

theorem wf_of_mem_AMO (g : Grid) (G : List Proposition)
    (hG : ∀ q ∈ G, q ∈ propsOf g) (cl : List Int) (h : cl ∈ deltaAMO G) :
    cl ≠ [] ∧ ∀ lit ∈ cl, lit ≠ 0 ∧
      ∃ ip ∈ (SudokuCNF.encode g).propositions, ip.1 = lit.natAbs := by
  unfold deltaAMO at h
  rcases List.mem_map.mp h with ⟨pq, hpq, hcl⟩
  rcases of_mem_combinations2 G pq hpq with ⟨h1, h2⟩
  subst hcl
  refine ⟨by simp, ?_⟩
  intro lit hlit
  rcases List.mem_cons.mp hlit with hl | hlit
  · subst hl
    exact wf_lit_neg g pq.1 (hG pq.1 h1)
  rcases List.mem_cons.mp hlit with hl | hlit
  · subst hl
    exact wf_lit_neg g pq.2 (hG pq.2 h2)
  · simp at hlit

theorem wf_of_mem_EO (g : Grid) (G : List Proposition)
    (hG : ∀ q ∈ G, q ∈ propsOf g) (cl : List Int) (h : cl ∈ deltaEO G) :
    cl ≠ [] ∧ ∀ lit ∈ cl, lit ≠ 0 ∧
      ∃ ip ∈ (SudokuCNF.encode g).propositions, ip.1 = lit.natAbs := by
  unfold deltaEO at h
  cases hemp : G.isEmpty with
  | true => rw [hemp] at h; simp at h
  | false =>
    rw [hemp] at h
    simp only [Bool.false_eq_true, if_false] at h
    rcases List.mem_append.mp h with h | h
    · unfold deltaALO at h
      rw [hemp] at h
      simp only [Bool.false_eq_true, if_false, List.mem_singleton] at h
      subst h
      have hGne : G ≠ [] := by
        cases G with
        | nil => simp [List.isEmpty] at hemp
        | cons a l => exact List.cons_ne_nil a l
      refine ⟨by simpa using hGne, ?_⟩
      intro lit hlit
      rcases List.mem_map.mp hlit with ⟨p, hpG, hpl⟩
      subst hpl
      exact wf_lit_pos g p (hG p hpG)
    · exact wf_of_mem_AMO g G hG cl h

theorem family_mem_props [DecidableEq κ] (ps : List Proposition)
    (kf : Proposition → κ) (kg : κ × List Proposition)
    (h : kg ∈ group_by ps kf) : ∀ q ∈ kg.2, q ∈ ps := by
  intro q hq
  rw [of_mem_group_by ps kf kg h] at hq
  exact (List.mem_filter.mp hq).1

/-- C8: the compiler never rejects its input.  For every grid — including
grids with an empty cell that has zero candidates and grids whose
pre-filled cells already conflict — `encode` is a total function that
keeps the puzzle unchanged and produces a well-formed formula: no clause
is empty, and every literal is a nonzero signed occurrence of a generated
proposition identifier. -/
theorem encode_never_rejects (g : Grid) :
    (SudokuCNF.encode g).puzzle = g ∧
    ∀ cl ∈ (SudokuCNF.encode g).cnf, cl ≠ [] ∧
      ∀ lit ∈ cl, lit ≠ 0 ∧
        ∃ ip ∈ (SudokuCNF.encode g).propositions, ip.1 = lit.natAbs := by
  refine ⟨rfl, ?_⟩
  intro cl hcl
  rw [encode_cnf, post_init_eq] at hcl
  rcases List.mem_append.mp hcl with hcl | hbl
  rcases List.mem_append.mp hcl with hcl | hco
  rcases List.mem_append.mp hcl with hce | hro
  · unfold cellFamily at hce
    rcases List.mem_flatMap.mp hce with ⟨kg, hkg, hce⟩
    exact wf_of_mem_EO g kg.2 (family_mem_props _ _ kg hkg) cl hce
  · unfold rowFamily at hro
    rcases List.mem_flatMap.mp hro with ⟨kg, hkg, hro⟩
    exact wf_of_mem_AMO g kg.2 (family_mem_props _ _ kg hkg) cl hro
  · unfold colFamily at hco
    rcases List.mem_flatMap.mp hco with ⟨kg, hkg, hco⟩
    exact wf_of_mem_AMO g kg.2 (family_mem_props _ _ kg hkg) cl hco
  · unfold blockFamily at hbl
    rcases List.mem_flatMap.mp hbl with ⟨kg, hkg, hbl⟩
    exact wf_of_mem_AMO g kg.2 (family_mem_props _ _ kg hkg) cl hbl

/-- C8 witness: the conflicted grid (two 1s pre-filled in row 0) is still
encoded; its first clause `[1, 2, 3]` is nonempty and its first literal is
the signed identifier of a generated proposition. -/
theorem encode_never_rejects_witness :
    (SudokuCNF.encode badGrid).puzzle = badGrid ∧
    [1, 2, 3] ∈ (SudokuCNF.encode badGrid).cnf ∧
    [1, 2, 3] ≠ ([] : List Int) ∧
    (1 : Int) ≠ 0 ∧
    ∃ ip ∈ (SudokuCNF.encode badGrid).propositions, ip.1 = (1 : Int).natAbs :=
  ⟨(encode_never_rejects badGrid).1, by decide,
    ((encode_never_rejects badGrid).2 [1, 2, 3] (by decide)).1,
    (((encode_never_rejects badGrid).2 [1, 2, 3] (by decide)).2 1 (by decide)).1,
    (((encode_never_rejects badGrid).2 [1, 2, 3] (by decide)).2 1 (by decide)).2⟩

theorem npIndex_none_iff (n : Nat) (i : Int) :
    npIndex n i = none ↔ (i < -(n : Int) ∨ (n : Int) ≤ i) := by
  unfold npIndex
  by_cases h1 : 0 ≤ i
  · rw [if_pos h1]
    by_cases h2 : i < (n : Int)
    · rw [if_pos h2]
      constructor
      · intro h
        cases h
      · intro h
        omega
    · rw [if_neg h2]
      constructor
      · intro _
        omega
      · intro _
        rfl
  · rw [if_neg h1]
    by_cases h2 : -(n : Int) ≤ i
    · rw [if_pos h2]
      constructor
      · intro h
        cases h
      · intro h
        omega
    · rw [if_neg h2]
      constructor
      · intro _
        omega
      · intro _
        rfl

theorem npIndex_of_nonneg (n : Nat) (i : Int) (h1 : 0 ≤ i) (h2 : i < (n : Int)) :
    npIndex n i = some i.toNat := by
  unfold npIndex
  rw [if_pos h1, if_pos h2]

theorem npIndex_of_neg (n : Nat) (i : Int) (h1 : -(n : Int) ≤ i) (h2 : i < 0) :
    npIndex n i = some (i + (n : Int)).toNat := by
  unfold npIndex
  rw [if_neg (by omega), if_pos h1]

/-- C10, counterexample: in a 4x4 grid the accessors do not fail at
row index `-1`, which lies outside `[0, n)` — instead they silently
access and modify the cell in row 3 (numpy wrap-around), so the claimed
bounds-checking behaviour does not hold. -/
theorem cell_access_bounds_cex :
    ((-1 : Int) < 0) ∧
    getItem probeGrid (-1) 0 = some (cell probeGrid 3 0) ∧
    getItem probeGrid (-1) 0 ≠ none ∧
    setItem probeGrid (-1) 0 9 = some (setCell probeGrid 3 0 9) := by
  decide

/-- C10 (amended): the accessors raise `IndexError` exactly when `row` or
`col` lies outside `[-n, n)`, not `[0, n)`; indices in `[0, n)` access the
addressed cell, while negative indices in `[-n, 0)` silently resolve to
the cell at index `i + n` (numpy wrap-around) for both reads and writes. -/
theorem cell_access_bounds (g : Grid) (r c : Int) (v : Nat) :
    (getItem g r c = none ↔ setItem g r c v = none) ∧
    (getItem g r c = none ↔
      (r < -(gridSize g : Int) ∨ (gridSize g : Int) ≤ r ∨
        c < -(gridSize g : Int) ∨ (gridSize g : Int) ≤ c)) ∧
    (0 ≤ r → r < (gridSize g : Int) → 0 ≤ c → c < (gridSize g : Int) →
      getItem g r c = some (cell g r.toNat c.toNat) ∧
      setItem g r c v = some (setCell g r.toNat c.toNat v)) ∧
    (-(gridSize g : Int) ≤ r → r < 0 → 0 ≤ c → c < (gridSize g : Int) →
      getItem g r c = some (cell g (r + (gridSize g : Int)).toNat c.toNat) ∧
      setItem g r c v =
        some (setCell g (r + (gridSize g : Int)).toNat c.toNat v)) := by
  refine ⟨?_, ?_, ?_, ?_⟩
  · unfold getItem setItem
    cases npIndex (gridSize g) r <;> cases npIndex (gridSize g) c <;> simp
  · have hr := npIndex_none_iff (gridSize g) r
    have hc := npIndex_none_iff (gridSize g) c
    unfold getItem
    cases h1 : npIndex (gridSize g) r <;> cases h2 : npIndex (gridSize g) c <;>
      rw [h1] at hr <;> rw [h2] at hc <;> simp at hr hc ⊢ <;> tauto
  · intro hr1 hr2 hc1 hc2
    unfold getItem setItem
    rw [npIndex_of_nonneg _ r hr1 hr2, npIndex_of_nonneg _ c hc1 hc2]
    exact ⟨rfl, rfl⟩
  · intro hr1 hr2 hc1 hc2
    unfold getItem setItem
    rw [npIndex_of_neg _ r hr1 hr2, npIndex_of_nonneg _ c hc1 hc2]
    exact ⟨rfl, rfl⟩

/-- C10 witness: the amended accessor contract evaluated on the 4x4 probe
grid at the in-range index (1, 2) and at the wrapped index (-1, 0). -/
theorem cell_access_bounds_witness :
    (getItem probeGrid 1 2 = some (cell probeGrid (1 : Int).toNat (2 : Int).toNat) ∧
      setItem probeGrid 1 2 9 =
        some (setCell probeGrid (1 : Int).toNat (2 : Int).toNat 9)) ∧
    (getItem probeGrid (-1) 0 =
        some (cell probeGrid ((-1 : Int) + (gridSize probeGrid : Int)).toNat
          (0 : Int).toNat) ∧
      setItem probeGrid (-1) 0 9 =
        some (setCell probeGrid ((-1 : Int) + (gridSize probeGrid : Int)).toNat
          (0 : Int).toNat 9)) ∧
    (getItem probeGrid 4 0 = none ↔ setItem probeGrid 4 0 9 = none) :=
  ⟨(cell_access_bounds probeGrid 1 2 9).2.2.1 (by decide) (by decide)
      (by decide) (by decide),
    (cell_access_bounds probeGrid (-1) 0 9).2.2.2 (by decide) (by decide)
      (by decide) (by decide),
    (cell_access_bounds probeGrid 4 0 9).1⟩

theorem digitChar_toNat (d : Nat) (h : d < 10) : (digitChar d).toNat = 48 + d := by
  interval_cases d <;> decide

theorem natCharsAux_fuel : ∀ f1 f2 n acc, n < f1 → n < f2 →
    natCharsAux f1 n acc = natCharsAux f2 n acc := by
  intro f1
  induction f1 with
  | zero => intro f2 n acc h1 _; omega
  | succ g ih =>
    intro f2 n acc h1 h2
    cases f2 with
    | zero => omega
    | succ f
  =>
      simp only [natCharsAux]
      by_cases hn : n < 10
      · rw [if_pos hn, if_pos hn]
      · rw [if_neg hn, if_neg hn]
        have hd : n / 10 < n := Nat.div_lt_self (by omega) (by omega)
        exact ih f (n / 10) _ (by omega) (by omega)

theorem natCharsAux_shift : ∀ f n acc, n < f →
    natCharsAux f n acc = natCharsAux f n [] ++ acc := by
  intro f
  induction f with
  | zero => intro n acc h; omega
  | succ g ih =>
    intro n acc h
    simp only [natCharsAux]
    by_cases hn : n < 10
    · rw [if_pos hn, if_pos hn]
      rfl
    · rw [if_neg hn, if_neg hn]
      have hd : n / 10 < n := Nat.div_lt_self (by omega) (by omega)
      rw [ih (n / 10) (digitChar (n % 10) :: acc) (by omega),
        ih (n / 10) [digitChar (n % 10)] (by omega), List.append_assoc]
      rfl

theorem natCharsAux_digits : ∀ f n acc, n < f → allDigits acc = true →
    allDigits (natCharsAux f n acc) = true := by
  intro f
  induction f with
  | zero => intro n acc h _; omega
  | succ g ih =>
    intro n acc h hacc
    simp only [natCharsAux]
    by_cases hn : n < 10
    · rw [if_pos hn]
      unfold allDigits at hacc ⊢
      rw [List.all_cons, hacc, digitChar_toNat n hn]
      simp only [Bool.and_true]
      rw [Bool.and_eq_true, decide_eq_true_iff, decide_eq_true_iff]
      omega
    · rw [if_neg hn]
      have hd : n / 10 < n := Nat.div_lt_self (by omega) (by omega)
      apply ih (n / 10) _ (by omega)
      unfold allDigits at hacc ⊢
      rw [List.all_cons, hacc, digitChar_toNat (n % 10) (by omega)]
      simp only [Bool.and_true]
      rw [Bool.and_eq_true, decide_eq_true_iff, decide_eq_true_iff]
      have := Nat.mod_lt n (show 0 < 10 by omega)
      omega

theorem natCharsAux_ne_nil : ∀ f n acc, n < f → natCharsAux f n acc ≠ [] := by
  intro f
  induction f with
  | zero => intro n acc h; omega
  | succ g ih =>
    intro n acc h
    simp only [natCharsAux]
    by_cases hn : n < 10
    · rw [if_pos hn]
      exact List.cons_ne_nil _ _
    · rw [if_neg hn]
      have hd : n / 10 < n := Nat.div_lt_self (by omega) (by omega)
      exact ih (n / 10) _ (by omega)

theorem digitsVal_natChars (n : Nat) : digitsVal (natChars n) 0 = n := by
  induction n using Nat.strong_induction_on with
  | _ n ih =>
    unfold natChars
    by_cases hn : n < 10
    · simp only [natCharsAux, if_pos hn]
      unfold digitsVal
      rw [List.foldl_cons, List.foldl_nil, digitChar_toNat n hn]
      omega
    · have hstep : natCharsAux (n + 1) n [] =
          natCharsAux n (n / 10) [digitChar (n % 10)] := by
        simp only [natCharsAux, if_neg hn]
      have hdlt : n / 10 < n := Nat.div_lt_self (by omega) (by omega)
      rw [hstep, natCharsAux_shift n (n / 10) _ (by omega),
        natCharsAux_fuel n (n / 10 + 1) (n / 10) [] (by omega) (by omega)]
      have ihv := ih (n / 10) hdlt
      unfold natChars at ihv
      unfold digitsVal at ihv ⊢
      rw [List.foldl_append, ihv, List.foldl_cons, List.foldl_nil,
        digitChar_toNat (n % 10) (by omega)]
      have := Nat.div_add_mod n 10
      omega

theorem natChars_digits (n : Nat) : allDigits (natChars n) = true :=
  natCharsAux_digits (n + 1) n [] (by omega) rfl

theorem parseNatChars_natChars (n : Nat) : parseNatChars (natChars n) = some n := by
  unfold parseNatChars
  rw [if_pos ⟨natCharsAux_ne_nil (n + 1) n [] (by omega), natChars_digits n⟩,
    digitsVal_natChars n]

theorem no_comma_of_digits (cs : List Char) (h : allDigits cs = true) :
    ∀ ch ∈ cs, ch ≠ ',' := by
  intro ch hch heq
  unfold allDigits at h
  rw [List.all_eq_true] at h
  have hb := h ch hch
  rw [Bool.and_eq_true, decide_eq_true_iff, decide_eq_true_iff] at hb
  rw [heq] at hb
  have h44 : (',' : Char).toNat = 44 := by decide
  omega

theorem splitComma_no_comma (cs : List Char) (h : ∀ ch ∈ cs, ch ≠ ',') :
    splitComma cs = [cs] := by
  induction cs with
  | nil => rfl
  | cons ch rest ih =>
    unfold splitComma
    rw [if_neg (h ch (List.mem_cons_self _ _)),
      ih fun c hc => h c (List.mem_cons_of_mem _ hc)]

theorem splitComma_append (x rest : List Char) (h : ∀ ch ∈ x, ch ≠ ',') :
    splitComma (x ++ ',' :: rest) = x :: splitComma rest := by
  induction x with
  | nil =>
    show splitComma (',' :: rest) = [] :: splitComma rest
    simp only [splitComma, if_true]
  | cons c x' ih =>
    show splitComma (c :: (x' ++ ',' :: rest)) = (c :: x') :: splitComma rest
    simp only [splitComma]
    rw [if_neg (h c (List.mem_cons_self _ _)),
      ih fun d hd => h d (List.mem_cons_of_mem _ hd)]

theorem splitComma_joinComma (pieces : List (List Char)) (hne : pieces ≠ [])
    (h : ∀ p ∈ pieces, ∀ ch ∈ p, ch ≠ ',') :
    splitComma (joinComma pieces) = pieces := by
  induction pieces with
  | nil => exact absurd rfl hne
  | cons x xs ih =>
    cases xs with
    | nil => exact splitComma_no_comma x (h x (List.mem_cons_self _ _))
    | cons y ys =>
      show splitComma (x ++ ',' :: joinComma (y :: ys)) = x :: (y :: ys)
      rw [splitComma_append x _ (h x (List.mem_cons_self _ _)),
        ih (List.cons_ne_nil _ _) fun p hp => h p (List.mem_cons_of_mem _ hp)]

theorem mapM_parse_natChars (row : List Nat) :
    (row.map natChars).mapM parseNatChars = some row := by
  induction row with
  | nil => rfl
  | cons a row ih =>
    rw [List.map_cons, List.mapM_cons, parseNatChars_natChars a, ih]
    rfl

theorem parse_plainLine (row : List Nat) (hne : row ≠ []) :
    (splitComma (plainLine row)).mapM parseNatChars = some row := by
  unfold plainLine
  rw [splitComma_joinComma (row.map natChars) (by simpa using hne)
    (fun p hp ch hch => by
      rcases List.mem_map.mp hp with ⟨a, _, ha⟩
      rw [← ha] at hch
      exact no_comma_of_digits _ (natChars_digits a) ch hch)]
  exact mapM_parse_natChars row

theorem parse_plain_lines (g : Grid) (hrows : ∀ row ∈ g, row ≠ []) :
    (g.map plainLine).mapM
      (fun line => (splitComma line).mapM parseNatChars) = some g := by
  induction g with
  | nil => rfl
  | cons row rows ih =>
    rw [List.map_cons, List.mapM_cons,
      parse_plainLine row (hrows row (List.mem_cons_self _ _)),
      ih fun r hr => hrows r (List.mem_cons_of_mem _ hr)]
    rfl

/-- C9, counterexample: the round-trip fails as stated.  The pretty
renderer emits dash separator lines and `"| … | … |"` rows, which the
comma-separated-integers parser rejects, so for the concrete valid 4x4
single-hole grid `parse (render g)` is `MalformedPuzzle` (`none`), not
`g`. -/
theorem parse_render_roundtrip_cex :
    ValidGrid holeGrid ∧
    from_text (render holeGrid) = none ∧
    ¬from_text (render holeGrid) = some holeGrid := by
  decide

/-- C9 (amended): the lossless round-trip holds for the plain
comma-separated serialization (the format of `from_text`'s docstring,
also printed by main.py for infeasible puzzles), not for the pretty
rendering: for every valid grid `g`, parsing the plain text of `g` yields
`g`. -/
theorem parse_render_roundtrip (g : Grid) (hv : ValidGrid g) :
    from_text (plainRender g) = some g := by
  have hrows_ne : ∀ row ∈ g, row ≠ [] := by
    intro row hrow hnil
    have hlen := hv.1 row hrow
    rw [hnil] at hlen
    have : g.length = 0 := by simpa using hlen.symm
    rw [List.length_eq_zero] at this
    rw [this] at hrow
    simp at hrow
  unfold from_text plainRender
  rw [parse_plain_lines g hrows_ne]
  simp only []
  rw [if_pos ⟨hv.1, hv.2.1, hv.2.2⟩]

/-- C9 witness: the plain round-trip evaluated on the concrete 4x4
single-hole grid. -/
theorem parse_render_roundtrip_witness :
    ValidGrid holeGrid ∧ from_text (plainRender holeGrid) = some holeGrid :=
  ⟨by decide, parse_render_roundtrip holeGrid (by decide)⟩

end Sudolver
